import Mathlib

/-!
# Route DSL (`route_dsl.go`): compile, match, register, resolve

A shallow embedding of `src/route_dsl.go`.

* Go strings are modelled as lists of Unicode code points (`Str`).  Every
  separator the program searches for (`/`, `.`, a blank, `{{`, `}}`) is ASCII,
  so on well-formed UTF-8 the byte-wise searches of the Go library find exactly
  the code-point positions used here.
* Go maps from string to string are association lists with unique keys
  (`StrMap`); a nil map is `none`.
* The type registry (`TypeFn`, a Go map from type expression to validator) is a
  function to `Option`.  The table `RouteTypes` lives in a file that is not
  part of the sources at hand, so `NewRouteDSL` takes it as a parameter.
* Go ranges over a map in an unspecified order; `Resolve` takes the entries as
  a list and visits them in the order of the list.
* A Go run-time panic (index out of range) is the outcome `Result.fault`.
* Writes to standard error (the `DEBUG` lines) have no effect on any result
  and are left out.
-/

set_option autoImplicit false

namespace Newt

/-- A Go string, as its sequence of code points. -/
abbrev Str := List Char

/-! ## The Go library functions the program calls -/

/-- Go `strings.HasPrefix`. -/
def HasPrefix (s pre : Str) : Bool := pre.isPrefixOf s

/-- Go `strings.HasSuffix`. -/
def HasSuffix (s suf : Str) : Bool := suf.isSuffixOf s

/-- Go `strings.TrimPrefix`: `s` without the leading `pre`, or `s` itself. -/
def TrimPrefix (s pre : Str) : Str :=
  if HasPrefix s pre then s.drop pre.length else s

/-- Go `strings.TrimSuffix`: `s` without the trailing `suf`, or `s` itself. -/
def TrimSuffix (s suf : Str) : Str :=
  if HasSuffix s suf then s.take (s.length - suf.length) else s

/-- Go `unicode.IsSpace`. -/
def isSpace (c : Char) : Bool :=
  let n := c.toNat
  (9 ≤ n && n ≤ 13) || n == 32 || n == 0x85 || n == 0xA0 || n == 0x1680 ||
  (0x2000 ≤ n && n ≤ 0x200A) || n == 0x2028 || n == 0x2029 || n == 0x202F ||
  n == 0x205F || n == 0x3000

/-- Go `strings.TrimSpace`: leading and trailing white space removed. -/
def TrimSpace (s : Str) : Str :=
  ((s.dropWhile isSpace).reverse.dropWhile isSpace).reverse

/-- The text before and the text after the first occurrence of `sep` in a
string (Go `strings.Index` gives the length of the first part), `none` when
`sep` does not occur.  `sep` is never empty where the program calls it. -/
def cut (sep : Str) : Str → Option (Str × Str)
  | [] => none
  | c :: cs =>
    if sep.isPrefixOf (c :: cs) then some ([], (c :: cs).drop sep.length)
    else match cut sep cs with
      | none => none
      | some (a, b) => some (c :: a, b)

/-- Go `strings.Contains` for a non-empty `sep`. -/
def Contains (s sep : Str) : Bool := (cut sep s).isSome

/-- Go `strings.SplitN(s, sep, 2)` for a non-empty `sep`: the two parts around
the first occurrence of `sep`, or `s` alone. -/
def SplitN2 (s sep : Str) : List Str :=
  match cut sep s with
  | none => [s]
  | some (a, b) => [a, b]

/-- Scan for `strings.Count`: `skip` characters of a separator just counted are
still to be stepped over, so that occurrences do not overlap. -/
def countAux (sep : Str) : Str → Nat → Nat
  | [], _ => 0
  | _ :: cs, skip + 1 => countAux sep cs skip
  | c :: cs, 0 =>
    if sep.isPrefixOf (c :: cs) then 1 + countAux sep cs (sep.length - 1)
    else countAux sep cs 0

/-- Go `strings.Count`: the number of non-overlapping occurrences of `sep`
(one more than the number of code points when `sep` is empty). -/
def Count (s sep : Str) : Nat :=
  if sep = [] then s.length + 1 else countAux sep s 0

/-- Scan for `strings.Split`: `cur` is the current piece, reversed. -/
def splitAux (sep : Str) : Str → Nat → Str → List Str
  | [], _, cur => [cur.reverse]
  | _ :: cs, skip + 1, cur => splitAux sep cs skip cur
  | c :: cs, 0, cur =>
    if sep.isPrefixOf (c :: cs) then cur.reverse :: splitAux sep cs (sep.length - 1) []
    else splitAux sep cs 0 (c :: cur)

/-- Go `strings.Split` for a non-empty `sep`: the pieces between the
occurrences of `sep`; a string without `sep` (the empty one too) gives one
piece. -/
def Split (s sep : Str) : List Str := splitAux sep s 0 []

/-- One more than Go `strings.LastIndex(p, "/")`: the length of `p` up to and
including its last slash, `0` when it has none. -/
def lastSlash1 (p : Str) : Nat :=
  p.length - (p.reverse.takeWhile (fun c => c != '/')).length

/-- Go `path.Split`: `p[:i+1], p[i+1:]` with `i` the index of the last slash. -/
def pathSplit (p : Str) : Str × Str :=
  (p.take (lastSlash1 p), p.drop (lastSlash1 p))

/-- The backwards scan of `path.Ext` over the reversed string; `acc` holds the
characters already passed. -/
def extAux : Str → Str → Str
  | [], _ => []
  | c :: cs, acc =>
    if c = '/' then [] else if c = '.' then '.' :: acc else extAux cs (c :: acc)

/-- Go `path.Ext`: the suffix from the last dot of the final slash-separated
element, empty when there is no dot. -/
def pathExt (p : Str) : Str := extAux p.reverse []

/-- Scan for `strings.ReplaceAll` with a non-empty `old`: `skip` characters of
an occurrence just replaced are still to be stepped over. -/
def replaceAux (old new : Str) : Str → Nat → Str
  | [], _ => []
  | _ :: cs, skip + 1 => replaceAux old new cs skip
  | c :: cs, 0 =>
    if old.isPrefixOf (c :: cs) then new ++ replaceAux old new cs (old.length - 1)
    else c :: replaceAux old new cs 0

/-- Go `strings.ReplaceAll` for a non-empty `old`: every non-overlapping
occurrence of `old`, from the left, replaced by `new`. -/
def ReplaceAll (s old new : Str) : Str := replaceAux old new s 0

/-! ## Data model -/

/-- A Go `map[string]string`: association list with unique keys. -/
abbrev StrMap := List (Str × Str)

/-- Map read `m[k]` with its presence flag. -/
def StrMap.get (m : StrMap) (k : Str) : Option Str := m.lookup k

/-- Map write `m[k] = v`. -/
def StrMap.set : StrMap → Str → Str → StrMap
  | [], k, v => [(k, v)]
  | (k', v') :: m, k, v =>
    if k' = k then (k, v) :: m else (k', v') :: StrMap.set m k v

/-- Source `EvalType`: a validator takes the type expression and the candidate
and returns the extracted value and a success flag. -/
abbrev EvalType := Str → Str → Str × Bool

/-- The Go map `TypeFn`, from type expression to validator. -/
abbrev TypeRegistry := Str → Option EvalType

/-- Source constant `StartVar`. -/
def StartVar : Str := "\x7b\x7b".toList

/-- Source constant `EndVar`. -/
def EndVar : Str := "\x7d\x7d".toList

/-- Source struct `RouteDSL` (the field `Types` is never read or written). -/
structure RouteDSL where
  Src : Str
  Dirs : List Str
  Base : Str
  Ext : Str
  VarToType : StrMap
  TypeFn : TypeRegistry

/-- The five errors of `varDefn`, one per `fmt.Errorf` call. -/
inductive VarDefnError where
  | missingDelimiters
  | missingNameAndType
  | missingTypeInfo (src : Str)
  | missingVarName
  | missingTypeExpr (vName : Str)
  deriving DecidableEq, Repr

/-- The three errors of `NewRouteDSL`, one per `fmt.Errorf` call, with the
arguments that are formatted into the message. -/
inductive CompileError where
  | dir (i : Nat) (elem : Str) (e : VarDefnError)
  | basename (base : Str) (e : VarDefnError)
  | extname (ext : Str) (e : VarDefnError)
  deriving DecidableEq, Repr

/-- What a call gives back: a value, a returned error, or a run-time panic. -/
inductive Result (ε α : Type) where
  | ok (val : α)
  | err (e : ε)
  | fault

/-! ## The program -/

/-- The test `strings.HasPrefix(s, StartVar) && strings.HasSuffix(s, EndVar)`
that `NewRouteDSL` makes on every raw segment. -/
def wrapped (s : Str) : Bool := HasPrefix s StartVar && HasSuffix s EndVar

/-- Source `varDefn`: name and type expression of a variable declaration. -/
def varDefn (src : Str) : Result VarDefnError (Str × Str) :=
  if !(wrapped src) then
    .err .missingDelimiters
  else
    let expr := TrimSpace (TrimSuffix (TrimPrefix src StartVar) EndVar)
    if expr = [] then .err .missingNameAndType
    else if !(Contains expr [' ']) then .err (.missingTypeInfo src)
    else
      match SplitN2 expr [' '] with
      | vName :: tExpr :: _ =>
        if vName = [] then .err .missingVarName
        else if tExpr = [] then .err (.missingTypeExpr vName)
        else .ok (vName, tExpr)
      | _ => .fault

/-- The directory components both `NewRouteDSL` and `Eval` take from the
directory part of a path:
`strings.Split(strings.TrimSuffix(strings.TrimPrefix(dir, "/"), "/"), "/")`. -/
def splitDirs (dir : Str) : List Str :=
  Split (TrimSuffix (TrimPrefix dir ['/']) ['/']) ['/']

/-- Lines 75-83 of `NewRouteDSL`: the raw basename and extension of the final
component; `none` is the index `parts[1]` out of range. -/
def splitBaseExt (base : Str) : Option (Str × Str) :=
  if Count base StartVar = 2 then
    match SplitN2 base EndVar with
    | p0 :: p1 :: _ => some (p0 ++ EndVar, p1)
    | _ => none
  else some (base, [])

/-- The loop of `NewRouteDSL` over the directory components, from index `i`
on: the stored segments are appended to `acc`, declarations written to `vt`. -/
def compileDirs : List Str → Nat → List Str → StrMap →
    Result CompileError (List Str × StrMap)
  | [], _, acc, vt => .ok (acc, vt)
  | elem :: rest, i, acc, vt =>
    if wrapped elem then
      match varDefn elem with
      | .ok (varName, typeExpr) =>
        compileDirs rest (i + 1) (acc ++ [StartVar ++ varName ++ EndVar])
          (vt.set varName typeExpr)
      | .err e => .err (.dir i elem e)
      | .fault => .fault
    else compileDirs rest (i + 1) (acc ++ [elem]) vt

/-- Lines 99-107 of `NewRouteDSL`: the basename segment. -/
def compileBase (base : Str) (vt : StrMap) : Result CompileError (Str × StrMap) :=
  if wrapped base then
    match varDefn base with
    | .ok (varName, typeExpr) =>
      .ok (StartVar ++ varName ++ EndVar, vt.set varName typeExpr)
    | .err e => .err (.basename base e)
    | .fault => .fault
  else .ok (base, vt)

/-- Lines 108-118 of `NewRouteDSL`: the extension segment. -/
def compileExt (ext : Str) (vt : StrMap) : Result CompileError (Str × StrMap) :=
  if ext ≠ [] then
    if wrapped ext then
      match varDefn ext with
      | .ok (varName, typeExpr) =>
        .ok (StartVar ++ varName ++ EndVar, vt.set varName typeExpr)
      | .err e => .err (.extname ext e)
      | .fault => .fault
    else .ok (ext, vt)
  else .ok (ext, vt)

/-- Source `NewRouteDSL`, with the table `RouteTypes` as a parameter. -/
def NewRouteDSL (RouteTypes : TypeRegistry) (src : Str) :
    Result CompileError RouteDSL :=
  let (dir, base) := pathSplit src
  let dirs := splitDirs dir
  match splitBaseExt base with
  | none => .fault
  | some (rawBase, rawExt) =>
    match compileDirs dirs 0 [] [] with
    | .fault => .fault
    | .err e => .err e
    | .ok (Dirs, vt1) =>
      match compileBase rawBase vt1 with
      | .fault => .fault
      | .err e => .err e
      | .ok (Base, vt2) =>
        match compileExt rawExt vt2 with
        | .fault => .fault
        | .err e => .err e
        | .ok (Ext, vt3) =>
          .ok { Src := src, Dirs := Dirs, Base := Base, Ext := Ext,
                VarToType := vt3, TypeFn := RouteTypes }

/-- Source `RegisterType`: the pattern after the call and the returned error
(`some name` is the error "name previously registered").  `ev` is the method
value `t.EvalType` of the registered type; the registry is an allocated map. -/
def RegisterType (rdsl : RouteDSL) (tName : Str) (ev : EvalType) :
    RouteDSL × Option Str :=
  if (rdsl.TypeFn tName).isSome then (rdsl, some tName)
  else
    ({ rdsl with TypeFn := fun k => if k = tName then some ev else rdsl.TypeFn k },
     none)

/-- Source `varName`. -/
def varName (src : Str) : Str := TrimSuffix (TrimPrefix src StartVar) EndVar

/-- Source `evalElement`: variable name, value and success flag of one pattern
segment against one candidate. -/
def evalElement (rdsl : RouteDSL) (elem src : Str) : Str × Str × Bool :=
  if HasPrefix elem StartVar then
    let vName := varName elem
    match rdsl.VarToType.get vName with
    | none => ([], [], false)
    | some tExpr =>
      match rdsl.TypeFn tExpr with
      | none => (vName, [], false)
      | some fn =>
        let (val, ok) := fn tExpr src
        if !ok then ([], [], false) else (vName, val, true)
  else ([], [], elem = src)

/-- The guarded map write that follows each evaluation in `Eval`
("Check if we need to store the variable"): `if vName != "" { m[vName] = val }`. -/
def store (m : StrMap) (vName val : Str) : StrMap :=
  if vName ≠ [] then m.set vName val else m

/-- The loop of `Eval` over the directory segments, each paired with the path
component at the same index; `none` is the early `return nil, false`.  The
length test before the loop makes the third case unreachable. -/
def evalDirs (rdsl : RouteDSL) : List Str → List Str → StrMap → Option StrMap
  | [], _, m => some m
  | elem :: rest, p :: ps, m =>
    let r := evalElement rdsl elem p
    if !r.2.2 then none
    else evalDirs rdsl rest ps (store m r.1 r.2.1)
  | _ :: _, [], _ => none

/-- The basename and extension candidates `Eval` takes from the final
component of the path (lines 171-184). -/
def candidates (rdsl : RouteDSL) (base : Str) : Str × Str :=
  let pExt := pathExt base
  let pBase := TrimSuffix base pExt
  if rdsl.Ext = [] then (base, []) else (pBase, pExt)

/-- Lines 201-210 of `Eval`: the extension segment, whose failure is ignored. -/
def evalExt (rdsl : RouteDSL) (pExt : Str) (m : StrMap) : StrMap :=
  if rdsl.Ext ≠ [] then
    let r := evalElement rdsl rdsl.Ext pExt
    if r.2.2 then store m r.1 r.2.1 else m
  else m

/-- Source `Eval`: the mapping (`none` for nil) and the success flag. -/
def Eval (rdsl : RouteDSL) (pathValue : Str) : Option StrMap × Bool :=
  let (dir, base) := pathSplit pathValue
  let pDirs := splitDirs dir
  let (pBase, pExt) := candidates rdsl base
  if pDirs.length ≠ rdsl.Dirs.length then (none, false)
  else
    match evalDirs rdsl rdsl.Dirs pDirs [] with
    | none => (none, false)
    | some m1 =>
      let m2 := evalExt rdsl pExt m1
      let r := evalElement rdsl rdsl.Base pBase
      if r.2.2 then (some (store m2 r.1 r.2.1), r.2.2)
      else (some m2, r.2.2)

/-- One turn of the loop of `Resolve`, for the entry `(k, v)`. -/
def resolveStep (res : Str) (kv : Str × Str) : Str :=
  let k := StartVar ++ kv.1 ++ EndVar
  if Contains res k then ReplaceAll res k kv.2 else res

/-- Source `Resolve`.  Go ranges over a map in an order it does not specify;
the order of the list `m` is the order in which the entries are visited. -/
def Resolve (_rdsl : RouteDSL) (m : StrMap) (src : Str) : Str :=
  m.foldl resolveStep src

/-! ## Notions used in the statements -/

/-- Whether `NewRouteDSL` finds no raw segment of the source wrapped in the
delimiter pair: no directory component, nor the basename, nor the extension. -/
def literalSource (src : Str) : Bool :=
  match splitBaseExt (pathSplit src).2 with
  | none => false
  | some (b, e) =>
    (splitDirs (pathSplit src).1).all (fun d => !wrapped d) && !wrapped b && !wrapped e

/-- The body of a delimiter-wrapped token as `varDefn` computes it: delimiters
stripped, surrounding white space trimmed. -/
def declBody (s : Str) : Str :=
  TrimSpace (TrimSuffix (TrimPrefix s StartVar) EndVar)

/-- A wrapped token whose body is empty or has no blank: the two cases in which
`varDefn` fails on it. -/
def badDecl (s : Str) : Bool :=
  wrapped s && (declBody s == [] || !Contains (declBody s) [' '])

/-- The name `name` is a key of the map `vt`, with a non-empty type
expression. -/
def Declared (vt : StrMap) (name : Str) : Prop :=
  ∃ t, vt.get name = some t ∧ t ≠ []

/-- The invariant of one stored segment `stored` compiled from the raw text
`raw`, with `vt` the variable-to-type mapping of the pattern: the stored
segment is wrapped in the delimiter pair exactly when the raw text is, a raw
text that is not wrapped is stored unchanged, and a wrapped stored segment is
`{{name}}` for a non-empty `name` that `varName` gives back and that `vt`
declares with a non-empty type expression. -/
def SegInv (vt : StrMap) (raw stored : Str) : Prop :=
  wrapped stored = wrapped raw ∧
  (wrapped raw = false → stored = raw) ∧
  (wrapped stored = true →
    ∃ name, stored = StartVar ++ name ++ EndVar ∧ name ≠ [] ∧
      varName stored = name ∧ Declared vt name)

/-- A string without an opening or closing brace. -/
def braceFree (s : Str) : Prop := '\x7b' ∉ s ∧ '\x7d' ∉ s

instance (s : Str) : Decidable (braceFree s) :=
  inferInstanceAs (Decidable ('\x7b' ∉ s ∧ '\x7d' ∉ s))

/-- The token `{{name}}` that `Resolve` looks for. -/
def token (name : Str) : Str := StartVar ++ name ++ EndVar

/-- A piece of a template: literal text, or the placeholder `{{name}}`. -/
inductive Piece where
  | lit (text : Str)
  | var (name : Str)
  deriving DecidableEq

/-- The text of a piece. -/
def Piece.render : Piece → Str
  | .lit text => text
  | .var name => token name

/-- A piece is well formed when its text, or its name, has no brace. -/
def Piece.wf : Piece → Prop
  | .lit text => braceFree text
  | .var name => braceFree name

instance (p : Piece) : Decidable p.wf :=
  match p with
  | .lit text => inferInstanceAs (Decidable (braceFree text))
  | .var name => inferInstanceAs (Decidable (braceFree name))

/-- The template a list of pieces stands for. -/
def renderAll : List Piece → Str
  | [] => []
  | p :: ps => p.render ++ renderAll ps

/-- A piece after substitution by the mapping `m`: a placeholder whose name is
a key of `m` becomes the value (the first one listed for that name), every
other piece is unchanged. -/
def Piece.subst (m : StrMap) : Piece → Piece
  | .lit text => .lit text
  | .var name =>
    match m.get name with
    | some v => .lit v
    | none => .var name

/-- One step of `Resolve` on a piece: the placeholder `{{k}}` becomes the
value, every other piece is unchanged. -/
def Piece.subst1 (k v : Str) : Piece → Piece
  | .lit text => .lit text
  | .var name => if name = k then .lit v else .var name

/-- The map write, if any, that `Eval` makes after evaluating the segment `seg`
against the candidate `c`: one write of the extracted value under the name
`varName seg` when the segment begins with the opening delimiter, its
evaluation succeeds and the name is not empty. -/
def segWrite (rdsl : RouteDSL) (seg c : Str) : List (Str × Str) :=
  if HasPrefix seg StartVar = true ∧ (evalElement rdsl seg c).2.2 = true ∧ varName seg ≠ []
  then [(varName seg, (evalElement rdsl seg c).2.1)] else []

/-- The map writes of a successful `Eval`, in the order they are made: the
directory segments from left to right, then the extension segment if the
pattern has one, then the basename. -/
def evalWrites (rdsl : RouteDSL) (pathValue : Str) : List (Str × Str) :=
  ((List.zipWith (segWrite rdsl) rdsl.Dirs (splitDirs (pathSplit pathValue).1)).flatten ++
    (if rdsl.Ext ≠ [] then
      segWrite rdsl rdsl.Ext (candidates rdsl (pathSplit pathValue).2).2 else [])) ++
    segWrite rdsl rdsl.Base (candidates rdsl (pathSplit pathValue).2).1

/-- The writes `ws` made one after the other on the map `m`. -/
def applyWrites (m : StrMap) (ws : List (Str × Str)) : StrMap :=
  ws.foldl (fun acc e => acc.set e.1 e.2) m

/-! ## Example inputs -/

/-- A registry without any entry. -/
def noTypes : TypeRegistry := fun _ => none

/-- A validator that accepts every candidate and returns it unchanged. -/
def acceptAll : EvalType := fun _ c => (c, true)

/-- A validator for decimal numerals: it accepts the non-empty strings of
digits and returns them unchanged. -/
def digitsOnly : EvalType := fun _ c => (c, !c.isEmpty && c.all Char.isDigit)

/-- A registry whose only entry is `int`, validated by `digitsOnly`. -/
def intTypes : TypeRegistry :=
  fun k => if k = "int".toList then some digitsOnly else none

/-- The source `/x{{y{{z}}w`: its final component has two opening delimiters,
so it is split into the basename `x{{y{{z}}` and the extension `w`. -/
def srcLiteralExt : Str := "/x\x7b\x7by\x7b\x7bz\x7d\x7dw".toList

/-- The path `/x{{y{{z}}.w`. -/
def pathLiteralExt : Str := "/x\x7b\x7by\x7b\x7bz\x7d\x7d.w".toList

/-- The pattern `NewRouteDSL` makes of `/x{{y{{z}}w`. -/
def patLiteralExt : RouteDSL :=
  { Src := srcLiteralExt
    Dirs := [[]]
    Base := "x\x7b\x7by\x7b\x7bz\x7d\x7d".toList
    Ext := "w".toList
    VarToType := []
    TypeFn := noTypes }

/-- The source `/a/{{id int}}`. -/
def srcAId : Str := "/a/\x7b\x7bid int\x7d\x7d".toList

/-- The pattern `NewRouteDSL` makes of `/a/{{id int}}` with the registry
`intTypes`. -/
def patAId : RouteDSL :=
  { Src := srcAId
    Dirs := ["a".toList]
    Base := "\x7b\x7bid\x7d\x7d".toList
    Ext := []
    VarToType := [("id".toList, "int".toList)]
    TypeFn := intTypes }

/-- The source `/{{id int}}/x`. -/
def srcIdX : Str := "/\x7b\x7bid int\x7d\x7d/x".toList

/-- The source `/{{a{{b`: two opening delimiters and no closing one in the
final component. -/
def srcTwoOpen : Str := "/\x7b\x7ba\x7b\x7bb".toList

/-- The source `/{{}}/{{a{{b`. -/
def srcEmptyThenTwoOpen : Str := "/\x7b\x7b\x7d\x7d/\x7b\x7ba\x7b\x7bb".toList

/-- The source `/a/{{id int/b`. -/
def srcUnclosed : Str := "/a/\x7b\x7bid int/b".toList

/-- The source `/users/{{id int}}/profile`. -/
def srcUsers : Str := "/users/\x7b\x7bid int\x7d\x7d/profile".toList

/-- The pattern `NewRouteDSL` makes of `/users/{{id int}}/profile`. -/
def patUsers (reg : TypeRegistry) : RouteDSL :=
  { Src := srcUsers
    Dirs := ["users".toList, "\x7b\x7bid\x7d\x7d".toList]
    Base := "profile".toList
    Ext := []
    VarToType := [("id".toList, "int".toList)]
    TypeFn := reg }

/-- The source `/posts/{{slug string}}{{ext string}}`. -/
def srcPosts : Str :=
  "/posts/\x7b\x7bslug string\x7d\x7d\x7b\x7bext string\x7d\x7d".toList

/-- The pattern `NewRouteDSL` makes of `/posts/{{slug string}}{{ext string}}`. -/
def patPosts (reg : TypeRegistry) : RouteDSL :=
  { Src := srcPosts
    Dirs := ["posts".toList]
    Base := "\x7b\x7bslug\x7d\x7d".toList
    Ext := "\x7b\x7bext\x7d\x7d".toList
    VarToType := [("slug".toList, "string".toList), ("ext".toList, "string".toList)]
    TypeFn := reg }

/-- A registry whose only entry is `string`, validated by `acceptAll`. -/
def stringTypes : TypeRegistry :=
  fun k => if k = "string".toList then some acceptAll else none

/-- A validator that accepts the strings made of letters only and returns them
unchanged. -/
def lettersOnly : EvalType := fun _ c => (c, c.all Char.isAlpha)

/-- A registry whose only entry is `string`, validated by `lettersOnly`. -/
def wordTypes : TypeRegistry :=
  fun k => if k = "string".toList then some lettersOnly else none

/-- The token `{{a<TAB>b}}`: a declaration whose name and type are separated by
a tab. -/
def tabDecl : Str := "\x7b\x7ba\tb\x7d\x7d".toList

/-- A pattern with the directory segment `{{id}}`, the basename `{{id}}`, the
declaration `id -> uuid` and the registry `intTypes`, which has no entry
`uuid`. -/
def patUuid : RouteDSL :=
  { Src := "/\x7b\x7bid uuid\x7d\x7d/\x7b\x7bid uuid\x7d\x7d".toList
    Dirs := ["\x7b\x7bid\x7d\x7d".toList]
    Base := "\x7b\x7bid\x7d\x7d".toList
    Ext := []
    VarToType := [("id".toList, "uuid".toList)]
    TypeFn := intTypes }

/-- The template `/users/{{id}}/profile`, as pieces. -/
def usersPieces : List Piece :=
  [.lit "/users/".toList, .var "id".toList, .lit "/profile".toList]

/-- The template `{{a}}`. -/
def tmplA : Str := "\x7b\x7ba\x7d\x7d".toList

/-- The entries `a -> {{b}}` and `b -> x`, visited in this order. -/
def chainAB : StrMap :=
  [("a".toList, "\x7b\x7bb\x7d\x7d".toList), ("b".toList, "x".toList)]

/-- The entries of `chainAB`, visited in the other order. -/
def chainBA : StrMap :=
  [("b".toList, "x".toList), ("a".toList, "\x7b\x7bb\x7d\x7d".toList)]

/-- The template `{{{a}}`, in which the token `{{a}}` occurs. -/
def tmplBraceA : Str := "\x7b\x7b\x7ba\x7d\x7d".toList

/-- The single entry `{a -> z`, whose name begins with a brace. -/
def mapBraceA : StrMap := [("\x7ba".toList, "z".toList)]

/-- The source `/{{e/{{b int}}{{e int}}`: the directory component `{{e` is not
wrapped in the delimiter pair, the final component declares `b` and `e`. -/
def srcUnclosedKey : Str :=
  "/\x7b\x7be/\x7b\x7bb int\x7d\x7d\x7b\x7be int\x7d\x7d".toList

/-- The pattern `NewRouteDSL` makes of `/{{e/{{b int}}{{e int}}` with the
registry `intTypes`. -/
def patUnclosedKey : RouteDSL :=
  { Src := srcUnclosedKey
    Dirs := ["\x7b\x7be".toList]
    Base := "\x7b\x7bb\x7d\x7d".toList
    Ext := "\x7b\x7be\x7d\x7d".toList
    VarToType := [("b".toList, "int".toList), ("e".toList, "int".toList)]
    TypeFn := intTypes }

/-! ## Lemmas on the library functions -/

theorem lastSlash1_append_slash (a b : Str) (hb : '/' ∉ b) :
    lastSlash1 (a ++ '/' :: b) = a.length + 1 := by
  have h : ((a ++ '/' :: b).reverse.takeWhile (fun c => c != '/')) = b.reverse := by
    have hpos : ∀ x ∈ b.reverse, (fun c => c != '/') x = true := by
      intro x hx
      have : x ≠ '/' := fun e => hb (e ▸ List.mem_reverse.mp hx)
      simpa using this
    simp only [List.reverse_append, List.reverse_cons, List.append_assoc]
    rw [List.takeWhile_append_of_pos hpos]
    simp
  unfold lastSlash1
  rw [h]
  simp
  omega

theorem pathSplit_append_slash (a b : Str) (hb : '/' ∉ b) :
    pathSplit (a ++ '/' :: b) = (a ++ ['/'], b) := by
  unfold pathSplit
  rw [lastSlash1_append_slash a b hb]
  have h1 : a ++ '/' :: b = (a ++ ['/']) ++ b := by simp
  have h2 : a.length + 1 = (a ++ ['/']).length := by simp
  rw [h1, h2, List.take_left, List.drop_left]

theorem splitAux_slash_free (a cur : Str) (ha : '/' ∉ a) :
    splitAux ['/'] a 0 cur = [cur.reverse ++ a] := by
  induction a generalizing cur with
  | nil => simp [splitAux]
  | cons x a ih =>
    have hx : x ≠ '/' := fun e => ha (by simp [e])
    have ha2 : '/' ∉ a := fun h => ha (List.mem_cons_of_mem _ h)
    have hne : ('/' == x) = false := by simpa using fun e : '/' = x => hx e.symm
    rw [splitAux]
    simp [List.isPrefixOf, hne, ih _ ha2]

theorem splitAux_slash (a b cur : Str) (ha : '/' ∉ a) :
    splitAux ['/'] (a ++ '/' :: b) 0 cur = (cur.reverse ++ a) :: splitAux ['/'] b 0 [] := by
  induction a generalizing cur with
  | nil => simp [splitAux, List.isPrefixOf]
  | cons x a ih =>
    have hx : x ≠ '/' := fun e => ha (by simp [e])
    have ha2 : '/' ∉ a := fun h => ha (List.mem_cons_of_mem _ h)
    have hne : ('/' == x) = false := by simpa using fun e : '/' = x => hx e.symm
    rw [List.cons_append, splitAux]
    simp [List.isPrefixOf, hne, ih _ ha2]

theorem TrimSuffix_append (a suf : Str) : TrimSuffix (a ++ suf) suf = a := by
  unfold TrimSuffix HasSuffix
  have : suf.isSuffixOf (a ++ suf) = true := by
    rw [List.isSuffixOf_iff_suffix]
    exact List.suffix_append a suf
  rw [if_pos this]
  simp

theorem TrimPrefix_append (pre a : Str) : TrimPrefix (pre ++ a) pre = a := by
  unfold TrimPrefix HasPrefix
  have : pre.isPrefixOf (pre ++ a) = true := by
    rw [List.isPrefixOf_iff_prefix]
    exact List.prefix_append pre a
  rw [if_pos this]
  simp

/-! ## Lemmas on `evalElement` and `Eval` -/

theorem evalElement_literal (rdsl : RouteDSL) (elem src : Str)
    (h : HasPrefix elem StartVar = false) :
    evalElement rdsl elem src = ([], [], decide (elem = src)) := by
  simp [evalElement, h]

theorem evalDirs_literal (rdsl : RouteDSL) :
    ∀ (ds ps : List Str) (m : StrMap),
      (∀ d ∈ ds, HasPrefix d StartVar = false) → ds.length = ps.length →
      evalDirs rdsl ds ps m = if ds = ps then some m else none
  | [], [], m, _, _ => by simp [evalDirs]
  | [], _ :: _, _, _, hl => by simp at hl
  | _ :: _, [], _, _, hl => by simp at hl
  | d :: ds, p :: ps, m, hd, hl => by
    have h1 : HasPrefix d StartVar = false := hd d (List.mem_cons_self _ _)
    have h2 : ∀ x ∈ ds, HasPrefix x StartVar = false :=
      fun x hx => hd x (List.mem_cons_of_mem _ hx)
    have h3 : ds.length = ps.length := by simpa using hl
    rw [evalDirs, evalElement_literal rdsl d p h1]
    by_cases hdp : d = p
    · subst hdp
      simp [store, evalDirs_literal rdsl ds ps m h2 h3]
    · simp [hdp]

theorem evalDirs_isSome (rdsl : RouteDSL) :
    ∀ (ds ps : List Str) (m : StrMap), ds.length = ps.length →
      (∀ e ∈ ds.zip ps, (evalElement rdsl e.1 e.2).2.2 = true) →
      ∃ m1, evalDirs rdsl ds ps m = some m1
  | [], _, m, _, _ => ⟨m, by simp [evalDirs]⟩
  | _ :: _, [], _, hl, _ => by simp at hl
  | d :: ds, p :: ps, m, hl, he => by
    have h1 : (evalElement rdsl d p).2.2 = true :=
      he (d, p) (by simp)
    have h2 : ∀ e ∈ ds.zip ps, (evalElement rdsl e.1 e.2).2.2 = true :=
      fun e hx => he e (by simp [hx])
    have h3 : ds.length = ps.length := by simpa using hl
    obtain ⟨m1, hm1⟩ := evalDirs_isSome rdsl ds ps
      (store m (evalElement rdsl d p).1 (evalElement rdsl d p).2.1) h3 h2
    exact ⟨m1, by simp [evalDirs, h1, hm1]⟩

theorem evalElement_var (rdsl : RouteDSL) (elem src t : Str) (fn : EvalType)
    (hp : HasPrefix elem StartVar = true)
    (ht : rdsl.VarToType.get (varName elem) = some t)
    (hf : rdsl.TypeFn t = some fn) :
    evalElement rdsl elem src =
      if (fn t src).2 = true then (varName elem, (fn t src).1, true) else ([], [], false) := by
  unfold evalElement
  rw [if_pos hp]
  simp only [ht, hf]
  cases h : (fn t src).2 <;> simp [h]

/-! ## Lemmas on `varDefn` and `NewRouteDSL` -/

theorem TrimSpace_eq_rdropWhile (s : Str) :
    TrimSpace s = (s.dropWhile isSpace).rdropWhile isSpace := rfl

theorem TrimSpace_head (s rest : Str) (c : Char) (h : TrimSpace s = c :: rest) :
    isSpace c = false := by
  rw [TrimSpace_eq_rdropWhile] at h
  obtain ⟨k, hk⟩ := List.rdropWhile_prefix isSpace (l := s.dropWhile isSpace)
  rw [h] at hk
  have := List.head?_dropWhile_not isSpace s
  rw [← hk] at this
  simpa using this

theorem TrimSpace_last (s front : Str) (c : Char) (h : TrimSpace s = front ++ [c]) :
    isSpace c = false := by
  rw [TrimSpace_eq_rdropWhile] at h
  have hne : (s.dropWhile isSpace).rdropWhile isSpace ≠ [] := by
    rw [h]; simp
  have := List.rdropWhile_last_not isSpace (s.dropWhile isSpace) hne
  simp only [h, List.getLast_append_singleton] at this
  simpa using this

theorem cut_char_some (c : Char) :
    ∀ (s a b : Str), cut [c] s = some (a, b) → s = a ++ c :: b ∧ c ∉ a
  | [], _, _, h => by simp [cut] at h
  | x :: xs, a, b, h => by
    rw [cut] at h
    by_cases hx : c = x
    · subst hx
      simp [List.isPrefixOf] at h
      obtain ⟨h1, h2⟩ := h
      subst h1 h2
      simp
    · have hne : (c == x) = false := by simpa using hx
      simp only [List.isPrefixOf, hne, Bool.false_and] at h
      cases hr : cut [c] xs with
      | none => simp [hr] at h
      | some r =>
        obtain ⟨a', b'⟩ := r
        simp [hr] at h
        obtain ⟨h1, h2⟩ := h
        subst h1 h2
        obtain ⟨e, hn⟩ := cut_char_some c xs a' b' hr
        refine ⟨by simp [e], ?_⟩
        intro hm
        rcases List.mem_cons.mp hm with h3 | h3
        · exact hx h3
        · exact hn h3

theorem cut_char_none (c : Char) : ∀ (s : Str), cut [c] s = none → c ∉ s
  | [], _ => by simp
  | x :: xs, h => by
    rw [cut] at h
    by_cases hx : c = x
    · subst hx
      simp [List.isPrefixOf] at h
    · have hne : (c == x) = false := by simpa using hx
      simp only [List.isPrefixOf, hne, Bool.false_and] at h
      cases hr : cut [c] xs with
      | none =>
        intro hm
        rcases List.mem_cons.mp hm with h3 | h3
        · exact hx h3
        · exact cut_char_none c xs hr h3
      | some r => simp [hr] at h

theorem isSpace_blank : isSpace ' ' = true := by decide

/-- On a wrapped token with an empty body `varDefn` fails. -/
theorem varDefn_empty (s : Str) (hw : wrapped s = true) (hb : declBody s = []) :
    varDefn s = .err .missingNameAndType := by
  unfold declBody at hb
  simp [varDefn, hw, hb]

/-- On a wrapped token whose body has no blank `varDefn` fails. -/
theorem varDefn_no_blank (s : Str) (hw : wrapped s = true) (hb : declBody s ≠ [])
    (hc : Contains (declBody s) [' '] = false) :
    varDefn s = .err (.missingTypeInfo s) := by
  unfold declBody at hb hc
  simp [varDefn, hw, hb, hc]

/-- On a wrapped token whose body has a blank, `varDefn` succeeds: the name is
the text before the first blank, the type expression the text after it, and
neither is empty. -/
theorem varDefn_ok (s : Str) (hw : wrapped s = true)
    (hc : Contains (declBody s) [' '] = true) :
    ∃ n t, varDefn s = .ok (n, t) ∧ declBody s = n ++ ' ' :: t ∧ ' ' ∉ n ∧
      n ≠ [] ∧ t ≠ [] := by
  unfold Contains at hc
  cases hr : cut [' '] (declBody s) with
  | none => simp [hr] at hc
  | some r =>
    obtain ⟨n, t⟩ := r
    obtain ⟨e, hn⟩ := cut_char_some ' ' _ n t hr
    have hn0 : n ≠ [] := by
      intro h0
      subst h0
      have := TrimSpace_head _ t ' ' (by simpa [declBody] using e)
      simp [isSpace_blank] at this
    have ht0 : t ≠ [] := by
      intro h0
      subst h0
      have := TrimSpace_last _ n ' ' (by simpa [declBody] using e)
      simp [isSpace_blank] at this
    have hb : declBody s ≠ [] := by rw [e]; simp
    refine ⟨n, t, ?_, e, hn, hn0, ht0⟩
    unfold declBody at hb hr
    simp [varDefn, hw, hb, Contains, SplitN2, hr, hn0, ht0]

/-- `varDefn` never faults, and on a wrapped token it fails exactly when the
body is empty or has no blank. -/
theorem varDefn_badDecl (s : Str) (hw : wrapped s = true) :
    (badDecl s = true → ∃ e, varDefn s = .err e) ∧
    (badDecl s = false → ∃ n t, varDefn s = .ok (n, t)) := by
  constructor
  · intro hbad
    by_cases hb : declBody s = []
    · exact ⟨_, varDefn_empty s hw hb⟩
    · have hc : Contains (declBody s) [' '] = false := by
        simpa [badDecl, hw, hb] using hbad
      exact ⟨_, varDefn_no_blank s hw hb hc⟩
  · intro hgood
    have hc : Contains (declBody s) [' '] = true := by
      have := hgood
      simp [badDecl, hw] at this
      exact this.2
    obtain ⟨n, t, h, _⟩ := varDefn_ok s hw hc
    exact ⟨n, t, h⟩

theorem badDecl_wrapped (s : Str) (h : badDecl s = true) : wrapped s = true := by
  simp only [badDecl, Bool.and_eq_true] at h
  exact h.1

theorem compileDirs_good :
    ∀ (ds : List Str) (i : Nat) (acc : List Str) (vt : StrMap),
      (∀ d ∈ ds, badDecl d = false) → ∃ r, compileDirs ds i acc vt = .ok r
  | [], _, acc, vt, _ => ⟨(acc, vt), by simp [compileDirs]⟩
  | d :: ds, i, acc, vt, h => by
    have hd : badDecl d = false := h d (List.mem_cons_self _ _)
    have hds : ∀ x ∈ ds, badDecl x = false := fun x hx => h x (List.mem_cons_of_mem _ hx)
    rw [compileDirs]
    by_cases hw : wrapped d = true
    · obtain ⟨n, t, hv⟩ := (varDefn_badDecl d hw).2 hd
      rw [if_pos hw, hv]
      exact compileDirs_good ds _ _ _ hds
    · rw [if_neg hw]
      exact compileDirs_good ds _ _ _ hds

theorem compileDirs_bad (d : Str) (post : List Str) (hbad : badDecl d = true) :
    ∀ (pre : List Str) (i : Nat) (acc : List Str) (vt : StrMap),
      (∀ x ∈ pre, badDecl x = false) →
      ∃ e, compileDirs (pre ++ d :: post) i acc vt = .err (.dir (i + pre.length) d e)
  | [], i, acc, vt, _ => by
    have hw := badDecl_wrapped d hbad
    obtain ⟨e, he⟩ := (varDefn_badDecl d hw).1 hbad
    exact ⟨e, by simp [compileDirs, hw, he]⟩
  | x :: pre, i, acc, vt, h => by
    have hx : badDecl x = false := h x (List.mem_cons_self _ _)
    have hpre : ∀ y ∈ pre, badDecl y = false := fun y hy => h y (List.mem_cons_of_mem _ hy)
    have hidx : i + (x :: pre).length = (i + 1) + pre.length := by simp; omega
    rw [List.cons_append, compileDirs, hidx]
    by_cases hw : wrapped x = true
    · obtain ⟨n, t, hv⟩ := (varDefn_badDecl x hw).2 hx
      rw [if_pos hw, hv]
      exact compileDirs_bad d post hbad pre _ _ _ hpre
    · rw [if_neg hw]
      exact compileDirs_bad d post hbad pre _ _ _ hpre

theorem compileBase_cases (b : Str) (vt : StrMap) :
    (badDecl b = true → ∃ e, compileBase b vt = .err (.basename b e)) ∧
    (badDecl b = false → ∃ r, compileBase b vt = .ok r) := by
  constructor
  · intro hbad
    have hw := badDecl_wrapped b hbad
    obtain ⟨e, he⟩ := (varDefn_badDecl b hw).1 hbad
    exact ⟨e, by simp [compileBase, hw, he]⟩
  · intro hgood
    by_cases hw : wrapped b = true
    · obtain ⟨n, t, hv⟩ := (varDefn_badDecl b hw).2 hgood
      exact ⟨(StartVar ++ n ++ EndVar, vt.set n t), by simp [compileBase, hw, hv]⟩
    · exact ⟨(b, vt), by simp [compileBase, hw]⟩

theorem compileExt_cases (x : Str) (vt : StrMap) :
    (badDecl x = true → ∃ e, compileExt x vt = .err (.extname x e)) ∧
    (badDecl x = false → ∃ r, compileExt x vt = .ok r) := by
  constructor
  · intro hbad
    have hw := badDecl_wrapped x hbad
    have hne : x ≠ [] := by
      intro h0
      subst h0
      revert hw
      decide
    obtain ⟨e, he⟩ := (varDefn_badDecl x hw).1 hbad
    exact ⟨e, by simp [compileExt, hne, hw, he]⟩
  · intro hgood
    by_cases hne : x = []
    · exact ⟨(x, vt), by simp [compileExt, hne]⟩
    · by_cases hw : wrapped x = true
      · obtain ⟨n, t, hv⟩ := (varDefn_badDecl x hw).2 hgood
        exact ⟨(StartVar ++ n ++ EndVar, vt.set n t), by simp [compileExt, hne, hw, hv]⟩
      · exact ⟨(x, vt), by simp [compileExt, hne, hw]⟩

/-- What `NewRouteDSL` returns once the final component has been split into
the raw basename `b` and the raw extension `x`: the error of the first wrapped
segment whose body is empty or has no blank, in the order directory components
(by index), basename, extension, and a pattern when there is none.  It never
faults in that case. -/
theorem NewRouteDSL_first_bad (reg : TypeRegistry) (src b x : Str)
    (hsplit : splitBaseExt (pathSplit src).2 = some (b, x)) :
    (∀ pre d post, splitDirs (pathSplit src).1 = pre ++ d :: post →
      (∀ y ∈ pre, badDecl y = false) → badDecl d = true →
      ∃ e, NewRouteDSL reg src = .err (.dir pre.length d e)) ∧
    ((∀ y ∈ splitDirs (pathSplit src).1, badDecl y = false) → badDecl b = true →
      ∃ e, NewRouteDSL reg src = .err (.basename b e)) ∧
    ((∀ y ∈ splitDirs (pathSplit src).1, badDecl y = false) → badDecl b = false →
      badDecl x = true → ∃ e, NewRouteDSL reg src = .err (.extname x e)) ∧
    ((∀ y ∈ splitDirs (pathSplit src).1, badDecl y = false) → badDecl b = false →
      badDecl x = false → ∃ p, NewRouteDSL reg src = .ok p) := by
  refine ⟨?_, ?_, ?_, ?_⟩
  · intro pre d post hds hpre hbad
    obtain ⟨e, he⟩ := compileDirs_bad d post hbad pre 0 [] [] hpre
    refine ⟨e, ?_⟩
    unfold NewRouteDSL
    simp only [hsplit, hds, he]
    simp
  · intro hds hbad
    obtain ⟨r, hr⟩ := compileDirs_good _ 0 [] [] hds
    obtain ⟨e, he⟩ := (compileBase_cases b r.2).1 hbad
    refine ⟨e, ?_⟩
    unfold NewRouteDSL
    simp only [hsplit, hr, he]
  · intro hds hb hbad
    obtain ⟨r, hr⟩ := compileDirs_good _ 0 [] [] hds
    obtain ⟨r2, hr2⟩ := (compileBase_cases b r.2).2 hb
    obtain ⟨e, he⟩ := (compileExt_cases x r2.2).1 hbad
    refine ⟨e, ?_⟩
    unfold NewRouteDSL
    simp only [hsplit, hr, hr2, he]
  · intro hds hb hx
    obtain ⟨r, hr⟩ := compileDirs_good _ 0 [] [] hds
    obtain ⟨r2, hr2⟩ := (compileBase_cases b r.2).2 hb
    obtain ⟨r3, hr3⟩ := (compileExt_cases x r2.2).2 hx
    refine ⟨{ Src := src, Dirs := r.1, Base := r2.1, Ext := r3.1, VarToType := r3.2,
              TypeFn := reg }, ?_⟩
    unfold NewRouteDSL
    simp only [hsplit, hr, hr2, hr3]

theorem varDefn_ne_fault (s : Str) : varDefn s ≠ .fault := by
  by_cases hw : wrapped s = true
  · cases hb : badDecl s
    · obtain ⟨n, t, h⟩ := (varDefn_badDecl s hw).2 hb
      rw [h]; intro h'; cases h'
    · obtain ⟨e, h⟩ := (varDefn_badDecl s hw).1 hb
      rw [h]; intro h'; cases h'
  · have : varDefn s = .err .missingDelimiters := by simp [varDefn, hw]
    rw [this]; intro h'; cases h'

theorem compileDirs_ne_fault :
    ∀ (ds : List Str) (i : Nat) (acc : List Str) (vt : StrMap),
      compileDirs ds i acc vt ≠ .fault
  | [], _, _, _ => by simp [compileDirs]
  | d :: ds, i, acc, vt => by
    rw [compileDirs]
    by_cases hw : wrapped d = true
    · rw [if_pos hw]
      cases hv : varDefn d with
      | ok r => exact compileDirs_ne_fault ds _ _ _
      | err e => intro h'; cases h'
      | fault => exact absurd hv (varDefn_ne_fault d)
    · rw [if_neg hw]
      exact compileDirs_ne_fault ds _ _ _

theorem compileBase_ne_fault (b : Str) (vt : StrMap) : compileBase b vt ≠ .fault := by
  cases hb : badDecl b
  · obtain ⟨r, h⟩ := (compileBase_cases b vt).2 hb
    rw [h]; intro h'; cases h'
  · obtain ⟨e, h⟩ := (compileBase_cases b vt).1 hb
    rw [h]; intro h'; cases h'

theorem compileExt_ne_fault (x : Str) (vt : StrMap) : compileExt x vt ≠ .fault := by
  cases hb : badDecl x
  · obtain ⟨r, h⟩ := (compileExt_cases x vt).2 hb
    rw [h]; intro h'; cases h'
  · obtain ⟨e, h⟩ := (compileExt_cases x vt).1 hb
    rw [h]; intro h'; cases h'

/-- The split of the final component is undefined exactly when the component
holds two opening delimiters and no closing one. -/
theorem splitBaseExt_none_iff (base : Str) :
    splitBaseExt base = none ↔ Count base StartVar = 2 ∧ Contains base EndVar = false := by
  unfold splitBaseExt SplitN2 Contains
  by_cases hc : Count base StartVar = 2
  · rw [if_pos hc]
    cases hr : cut EndVar base with
    | none => simp [hc]
    | some r => simp [hc]
  · rw [if_neg hc]
    simp [hc]

/-- `NewRouteDSL` faults exactly when the final component of the source holds
two opening delimiters and no closing one. -/
theorem NewRouteDSL_fault_iff (reg : TypeRegistry) (src : Str) :
    NewRouteDSL reg src = .fault ↔
      Count (pathSplit src).2 StartVar = 2 ∧ Contains (pathSplit src).2 EndVar = false := by
  rw [← splitBaseExt_none_iff]
  cases hs : splitBaseExt (pathSplit src).2 with
  | none =>
    simp only [NewRouteDSL, hs]
  | some be =>
    obtain ⟨b, x⟩ := be
    have hne : NewRouteDSL reg src ≠ .fault := by
      cases h1 : compileDirs (splitDirs (pathSplit src).1) 0 [] [] with
      | fault => exact absurd h1 (compileDirs_ne_fault _ _ _ _)
      | err e =>
        simp only [NewRouteDSL, hs, h1]
        intro h'; cases h'
      | ok r1 =>
        cases h2 : compileBase b r1.2 with
        | fault => exact absurd h2 (compileBase_ne_fault _ _)
        | err e =>
          simp only [NewRouteDSL, hs, h1, h2]
          intro h'; cases h'
        | ok r2 =>
          cases h3 : compileExt x r2.2 with
          | fault => exact absurd h3 (compileExt_ne_fault _ _)
          | err e =>
            simp only [NewRouteDSL, hs, h1, h2, h3]
            intro h'; cases h'
          | ok r3 =>
            simp only [NewRouteDSL, hs, h1, h2, h3]
            intro h'; cases h'
    simp [hne]

/-! ## Lemmas on `strings.ReplaceAll` -/

theorem replaceAux_skip (old new : Str) :
    ∀ (xs rest : Str), replaceAux old new (xs ++ rest) xs.length = replaceAux old new rest 0
  | [], rest => by simp
  | x :: xs, rest => by
    simp only [List.cons_append, List.length_cons, replaceAux]
    exact replaceAux_skip old new xs rest

theorem ReplaceAll_nil (old new : Str) : ReplaceAll [] old new = [] := rfl

theorem ReplaceAll_match (old new rest : Str) (h : old ≠ []) :
    ReplaceAll (old ++ rest) old new = new ++ ReplaceAll rest old new := by
  cases old with
  | nil => exact absurd rfl h
  | cons c cs =>
    have hp : (c :: cs).isPrefixOf (c :: (cs ++ rest)) = true := by
      rw [List.isPrefixOf_iff_prefix]
      exact List.prefix_append (c :: cs) rest
    unfold ReplaceAll
    rw [List.cons_append, replaceAux, if_pos hp]
    have : (c :: cs).length - 1 = cs.length := by simp
    rw [this, replaceAux_skip]

theorem ReplaceAll_cons_no_match (old new : Str) (c : Char) (cs : Str)
    (h : old.isPrefixOf (c :: cs) = false) :
    ReplaceAll (c :: cs) old new = c :: ReplaceAll cs old new := by
  unfold ReplaceAll
  rw [replaceAux]
  simp [h]

theorem cut_none_cons (sep : Str) (c : Char) (cs : Str) (h : cut sep (c :: cs) = none) :
    sep.isPrefixOf (c :: cs) = false ∧ cut sep cs = none := by
  rw [cut] at h
  cases hp : sep.isPrefixOf (c :: cs)
  · refine ⟨rfl, ?_⟩
    simp only [hp] at h
    cases hr : cut sep cs with
    | none => rfl
    | some r => simp [hr] at h
  · simp [hp] at h

theorem ReplaceAll_of_not_contains (old new : Str) :
    ∀ s : Str, Contains s old = false → ReplaceAll s old new = s
  | [], _ => rfl
  | c :: cs, h => by
    have hc : cut old (c :: cs) = none := by
      unfold Contains at h
      cases hr : cut old (c :: cs) with
      | none => rfl
      | some r => simp [hr] at h
    obtain ⟨h1, h2⟩ := cut_none_cons old c cs hc
    rw [ReplaceAll_cons_no_match old new c cs h1,
      ReplaceAll_of_not_contains old new cs (by simp [Contains, h2])]

theorem resolveStep_eq (res : Str) (kv : Str × Str) :
    resolveStep res kv = ReplaceAll res (StartVar ++ kv.1 ++ EndVar) kv.2 := by
  unfold resolveStep
  simp only []
  cases h : Contains res (StartVar ++ kv.1 ++ EndVar)
  · rw [ReplaceAll_of_not_contains _ _ _ h]
    simp
  · simp

/-! ## Lemmas for the leading slash -/

theorem takeWhile_append_singleton_neg {α : Type} (p : α → Bool) (x : α) (hx : p x = false) :
    ∀ r : List α, (r ++ [x]).takeWhile p = r.takeWhile p
  | [] => by simp [List.takeWhile, hx]
  | y :: r => by
    cases hy : p y
    · simp [List.takeWhile, hy]
    · simp [List.takeWhile, hy, takeWhile_append_singleton_neg p x hx r]

theorem lastSlash1_le (s : Str) : lastSlash1 s ≤ s.length := by
  unfold lastSlash1
  omega

theorem lastSlash1_cons_slash (s : Str) : lastSlash1 ('/' :: s) = lastSlash1 s + 1 := by
  unfold lastSlash1
  have h1 : (('/' :: s).reverse.takeWhile (fun c => c != '/')) =
      s.reverse.takeWhile (fun c => c != '/') := by
    rw [List.reverse_cons]
    exact takeWhile_append_singleton_neg _ '/' (by decide) _
  have h2 : (s.reverse.takeWhile (fun c => c != '/')).length ≤ s.length := by
    have := (List.takeWhile_sublist (fun c => c != '/') (l := s.reverse)).length_le
    simpa using this
  rw [h1]
  simp only [List.length_cons]
  omega

theorem pathSplit_cons_slash (s : Str) :
    pathSplit ('/' :: s) = ('/' :: (pathSplit s).1, (pathSplit s).2) := by
  unfold pathSplit
  rw [lastSlash1_cons_slash]
  simp

theorem TrimPrefix_slash_cons (d : Str) : TrimPrefix ('/' :: d) ['/'] = d := by
  have : '/' :: d = ['/'] ++ d := rfl
  rw [this, TrimPrefix_append]

theorem TrimPrefix_of_head_ne (d : Str) (h : d.head? ≠ some '/') : TrimPrefix d ['/'] = d := by
  unfold TrimPrefix HasPrefix
  cases d with
  | nil => simp
  | cons c cs =>
    have hc : c ≠ '/' := by simpa using h
    have : ('/' == c) = false := by simpa using fun e : '/' = c => hc e.symm
    simp [List.isPrefixOf, this]

theorem head?_take_ne (s : Str) (n : Nat) (h : s.head? ≠ some '/') :
    (s.take n).head? ≠ some '/' := by
  cases s with
  | nil => simp
  | cons c cs =>
    cases n with
    | zero => simp
    | succ n => simpa using h

theorem splitDirs_cons_slash (s : Str) (h : s.head? ≠ some '/') :
    splitDirs ('/' :: (pathSplit s).1) = splitDirs (pathSplit s).1 := by
  have hd : (pathSplit s).1.head? ≠ some '/' := head?_take_ne s _ h
  unfold splitDirs
  rw [TrimPrefix_slash_cons, TrimPrefix_of_head_ne _ hd]

/-! ## Lemmas on compiled patterns -/

theorem contains_blank_iff (s : Str) : Contains s [' '] = true ↔ ' ' ∈ s := by
  unfold Contains
  cases hr : cut [' '] s with
  | none =>
    have := cut_char_none ' ' s hr
    simp [this]
  | some r =>
    obtain ⟨a, b⟩ := r
    obtain ⟨e, _⟩ := cut_char_some ' ' s a b hr
    simp [e]

theorem varName_wrap (name : Str) : varName (StartVar ++ name ++ EndVar) = name := by
  unfold varName
  rw [List.append_assoc, TrimPrefix_append, TrimSuffix_append]

theorem HasPrefix_wrap (name : Str) : HasPrefix (StartVar ++ name ++ EndVar) StartVar = true := by
  unfold HasPrefix
  rw [List.isPrefixOf_iff_prefix, List.append_assoc]
  exact List.prefix_append _ _

theorem HasSuffix_wrap (name : Str) : HasSuffix (StartVar ++ name ++ EndVar) EndVar = true := by
  unfold HasSuffix
  rw [List.isSuffixOf_iff_suffix]
  exact List.suffix_append _ _

theorem wrapped_wrap (name : Str) : wrapped (StartVar ++ name ++ EndVar) = true := by
  unfold wrapped
  rw [HasPrefix_wrap, HasSuffix_wrap]
  rfl

/-- When a directory segment fails against every candidate, the directory loop
of `Eval` fails. -/
theorem evalDirs_none_of_mem (rdsl : RouteDSL) (elem : Str)
    (hf : ∀ c, (evalElement rdsl elem c).2.2 = false) :
    ∀ (ds ps : List Str) (m : StrMap), elem ∈ ds → ds.length = ps.length →
      evalDirs rdsl ds ps m = none
  | [], _, _, hm, _ => by simp at hm
  | _ :: _, [], _, _, hl => by simp at hl
  | d :: ds, p :: ps, m, hm, hl => by
    rw [evalDirs]
    cases hd : (evalElement rdsl d p).2.2
    · simp
    · have hne : d ≠ elem := by
        intro e
        rw [e, hf p] at hd
        cases hd
      have hmem : elem ∈ ds := by
        rcases List.mem_cons.mp hm with h1 | h1
        · exact absurd h1.symm hne
        · exact h1
      simp only [Bool.not_true, Bool.false_eq_true, if_false]
      exact evalDirs_none_of_mem rdsl elem hf ds ps _ hmem (by simpa using hl)

/-- What a successful `NewRouteDSL` went through: the split of the final
component, the directory loop, the basename and the extension. -/
theorem NewRouteDSL_ok_inv (reg : TypeRegistry) (src : Str) (p : RouteDSL)
    (h : NewRouteDSL reg src = .ok p) :
    ∃ b x r1 r2 r3, splitBaseExt (pathSplit src).2 = some (b, x) ∧
      compileDirs (splitDirs (pathSplit src).1) 0 [] [] = .ok r1 ∧
      compileBase b r1.2 = .ok r2 ∧
      compileExt x r2.2 = .ok r3 ∧
      p = { Src := src, Dirs := r1.1, Base := r2.1, Ext := r3.1, VarToType := r3.2,
            TypeFn := reg } := by
  cases hs : splitBaseExt (pathSplit src).2 with
  | none => simp only [NewRouteDSL, hs] at h; cases h
  | some be =>
    obtain ⟨b, x⟩ := be
    cases h1 : compileDirs (splitDirs (pathSplit src).1) 0 [] [] with
    | fault => simp only [NewRouteDSL, hs, h1] at h; cases h
    | err e => simp only [NewRouteDSL, hs, h1] at h; cases h
    | ok r1 =>
      cases h2 : compileBase b r1.2 with
      | fault => simp only [NewRouteDSL, hs, h1, h2] at h; cases h
      | err e => simp only [NewRouteDSL, hs, h1, h2] at h; cases h
      | ok r2 =>
        cases h3 : compileExt x r2.2 with
        | fault => simp only [NewRouteDSL, hs, h1, h2, h3] at h; cases h
        | err e => simp only [NewRouteDSL, hs, h1, h2, h3] at h; cases h
        | ok r3 =>
          simp only [NewRouteDSL, hs, h1, h2, h3] at h
          injection h with h
          exact ⟨b, x, r1, r2, r3, rfl, rfl, h2, h3, h.symm⟩

theorem compileDirs_length :
    ∀ (ds : List Str) (i : Nat) (acc : List Str) (vt : StrMap) (r : List Str × StrMap),
      compileDirs ds i acc vt = .ok r → r.1.length = acc.length + ds.length
  | [], _, acc, vt, r, h => by
    simp only [compileDirs] at h
    injection h with h
    subst h
    simp
  | d :: ds, i, acc, vt, r, h => by
    rw [compileDirs] at h
    by_cases hw : wrapped d = true
    · rw [if_pos hw] at h
      cases hv : varDefn d with
      | ok nt =>
        rw [hv] at h
        have := compileDirs_length ds _ _ _ r h
        simp at this ⊢
        omega
      | err e => rw [hv] at h; cases h
      | fault => rw [hv] at h; cases h
    · rw [if_neg hw] at h
      have := compileDirs_length ds _ _ _ r h
      simp at this ⊢
      omega

theorem splitAux_slash_length :
    ∀ (s cur : Str), (splitAux ['/'] s 0 cur).length = s.count '/' + 1
  | [], _ => by simp [splitAux]
  | c :: cs, cur => by
    rw [splitAux]
    by_cases hc : c = '/'
    · subst hc
      simp [List.isPrefixOf, splitAux_slash_length cs []]
    · have hne : ('/' == c) = false := by simpa using fun e : '/' = c => hc e.symm
      have hne2 : (c == '/') = false := by simpa using hc
      simp [List.isPrefixOf, hne, splitAux_slash_length cs (c :: cur), List.count_cons, hne2]

theorem Split_slash_length (s : Str) : (Split s ['/']).length = s.count '/' + 1 :=
  splitAux_slash_length s []

theorem last_slash_decomp : ∀ s : Str, '/' ∈ s → ∃ a b, s = a ++ '/' :: b ∧ '/' ∉ b
  | [], h => by simp at h
  | c :: s, h => by
    by_cases hs : '/' ∈ s
    · obtain ⟨a, b, e, hb⟩ := last_slash_decomp s hs
      exact ⟨c :: a, b, by simp [e], hb⟩
    · have hc : c = '/' := by
        rcases List.mem_cons.mp h with h1 | h1
        · exact h1.symm
        · exact absurd h1 hs
      exact ⟨[], s, by simp [hc], hs⟩

theorem pathSplit_no_slash (s : Str) (h : '/' ∉ s) : pathSplit s = ([], s) := by
  have ht : s.reverse.takeWhile (fun c => c != '/') = s.reverse := by
    rw [List.takeWhile_eq_self_iff]
    intro x hx
    have : x ≠ '/' := fun e => h (e ▸ List.mem_reverse.mp hx)
    simpa using this
  unfold pathSplit lastSlash1
  rw [ht]
  simp

theorem count_slash_zero (b : Str) (h : '/' ∉ b) : b.count '/' = 0 :=
  List.count_eq_zero.mpr h

/-- The number of directory components `NewRouteDSL` and `Eval` take from a
path, in terms of the slashes of the path without one leading slash. -/
theorem splitDirs_length (src : Str) :
    (splitDirs (pathSplit src).1).length = max 1 ((TrimPrefix src ['/']).count '/') := by
  by_cases hs : '/' ∈ src
  · obtain ⟨a, b, e, hb⟩ := last_slash_decomp src hs
    subst e
    rw [pathSplit_append_slash a b hb]
    unfold splitDirs
    simp only []
    cases a with
    | nil =>
      have h1 : TrimPrefix ([] ++ ['/']) ['/'] = [] := by decide
      have h2 : TrimPrefix ([] ++ '/' :: b) ['/'] = b := TrimPrefix_slash_cons b
      rw [h1, h2, Split_slash_length, count_slash_zero b hb]
      decide
    | cons c a' =>
      by_cases hc : c = '/'
      · subst hc
        have h1 : TrimPrefix ('/' :: a' ++ ['/']) ['/'] = a' ++ ['/'] :=
          TrimPrefix_slash_cons _
        have h2 : TrimPrefix ('/' :: a' ++ '/' :: b) ['/'] = a' ++ '/' :: b :=
          TrimPrefix_slash_cons _
        rw [h1, h2, TrimSuffix_append, Split_slash_length]
        simp [List.count_append, List.count_cons, count_slash_zero b hb]
      · have h1 : TrimPrefix (c :: a' ++ ['/']) ['/'] = c :: a' ++ ['/'] :=
          TrimPrefix_of_head_ne _ (by simpa using hc)
        have h2 : TrimPrefix (c :: a' ++ '/' :: b) ['/'] = c :: a' ++ '/' :: b :=
          TrimPrefix_of_head_ne _ (by simpa using hc)
        rw [h1, h2, TrimSuffix_append, Split_slash_length]
        simp [List.count_append, List.count_cons, count_slash_zero b hb, hc]
  · rw [pathSplit_no_slash src hs]
    have h1 : (splitDirs (([] : Str), src).1).length = 1 := rfl
    have h2 : TrimPrefix src ['/'] = src := by
      apply TrimPrefix_of_head_ne
      intro hh
      cases src with
      | nil => simp at hh
      | cons c cs =>
        simp at hh
        exact hs (by simp [hh])
    rw [h1, h2, count_slash_zero src hs]
    decide

theorem cut_sound (sep : Str) :
    ∀ (s a b : Str), cut sep s = some (a, b) → s = a ++ sep ++ b
  | [], _, _, h => by simp [cut] at h
  | c :: cs, a, b, h => by
    rw [cut] at h
    cases hp : sep.isPrefixOf (c :: cs)
    · simp only [hp] at h
      cases hr : cut sep cs with
      | none => simp [hr] at h
      | some r =>
        obtain ⟨a0, b0⟩ := r
        simp [hr] at h
        obtain ⟨h1, h2⟩ := h
        subst h1 h2
        have := cut_sound sep cs a0 b0 hr
        simp [this]
    · simp [hp] at h
      obtain ⟨h1, h2⟩ := h
      subst h1 h2
      have hpre : sep <+: c :: cs := List.isPrefixOf_iff_prefix.mp hp
      have := List.prefix_iff_eq_append.mp hpre
      simp [this]

theorem cut_first (sep : Str) :
    ∀ (s a b : Str), cut sep s = some (a, b) →
      ∀ a' b', s = a' ++ sep ++ b' → a.length ≤ a'.length
  | [], _, _, h => by simp [cut] at h
  | c :: cs, a, b, h => by
    intro a' b' e
    rw [cut] at h
    cases hp : sep.isPrefixOf (c :: cs)
    · simp only [hp] at h
      cases hr : cut sep cs with
      | none => simp [hr] at h
      | some r =>
        obtain ⟨a0, b0⟩ := r
        simp [hr] at h
        obtain ⟨h1, h2⟩ := h
        subst h1 h2
        cases a' with
        | nil =>
          have : sep <+: c :: cs := ⟨b', by simpa using e.symm⟩
          rw [← List.isPrefixOf_iff_prefix, hp] at this
          cases this
        | cons c' a'' =>
          have e' : cs = a'' ++ sep ++ b' := by
            simp at e
            simp [e.2]
          have := cut_first sep cs a0 b0 hr a'' b' e'
          simp
          omega
    · simp [hp] at h
      obtain ⟨h1, _⟩ := h
      subst h1
      simp

theorem StrMap.get_set (m : StrMap) (k v k' : Str) :
    (m.set k v).get k' = if k' = k then some v else m.get k' := by
  induction m with
  | nil =>
    by_cases h : k' = k
    · simp [StrMap.set, StrMap.get, List.lookup, h]
    · have hb : (k' == k) = false := by simpa using h
      simp [StrMap.set, StrMap.get, List.lookup, h, hb]
  | cons e m ih =>
    obtain ⟨k0, v0⟩ := e
    unfold StrMap.get at ih ⊢
    by_cases h0 : k0 = k
    · subst h0
      by_cases h : k' = k0
      · simp [StrMap.set, List.lookup, h]
      · have hb : (k' == k0) = false := by simpa using h
        simp [StrMap.set, List.lookup, h, hb]
    · by_cases h : k' = k
      · subst h
        have h1 : ¬ k' = k0 := fun e => h0 e.symm
        have hb : (k' == k0) = false := by simpa using h1
        simp [StrMap.set, List.lookup, h0, hb, ih]
      · by_cases h1 : k' = k0
        · simp [StrMap.set, List.lookup, h0, h1]
        · have hb : (k' == k0) = false := by simpa using h1
          simp [StrMap.set, List.lookup, h0, hb, h, ih]

theorem Declared_set (vt : StrMap) (k v : Str) (hv : v ≠ []) :
    Declared (vt.set k v) k ∧ ∀ n, Declared vt n → Declared (vt.set k v) n := by
  constructor
  · exact ⟨v, by simp [StrMap.get_set], hv⟩
  · rintro n ⟨t, ht, ht0⟩
    by_cases h : n = k
    · exact ⟨v, by simp [StrMap.get_set, h], hv⟩
    · exact ⟨t, by simp [StrMap.get_set, h, ht], ht0⟩

theorem SegInv_mono (vt vt' : StrMap) (raw stored : Str)
    (hm : ∀ n, Declared vt n → Declared vt' n) (h : SegInv vt raw stored) :
    SegInv vt' raw stored := by
  obtain ⟨h1, h2, h3⟩ := h
  refine ⟨h1, h2, fun hw => ?_⟩
  obtain ⟨name, e, hn, hv, hd⟩ := h3 hw
  exact ⟨name, e, hn, hv, hm name hd⟩

theorem SegInv_literal (vt : StrMap) (raw : Str) (hw : ¬ wrapped raw = true) :
    SegInv vt raw raw := by
  refine ⟨rfl, fun _ => rfl, fun h => absurd h hw⟩

theorem SegInv_decl (vt : StrMap) (raw n t : Str) (hw : wrapped raw = true)
    (hv : varDefn raw = .ok (n, t)) :
    SegInv (vt.set n t) raw (StartVar ++ n ++ EndVar) ∧
    ∀ k, Declared vt k → Declared (vt.set n t) k := by
  have hc : Contains (declBody raw) [' '] = true := by
    by_cases hc : Contains (declBody raw) [' '] = true
    · exact hc
    · have hc' : Contains (declBody raw) [' '] = false := by simpa using hc
      by_cases hb : declBody raw = []
      · rw [varDefn_empty raw hw hb] at hv; cases hv
      · rw [varDefn_no_blank raw hw hb hc'] at hv; cases hv
  obtain ⟨n', t', hok, _, _, hn0, ht0⟩ := varDefn_ok raw hw hc
  rw [hok] at hv
  injection hv with hv
  injection hv with e1 e2
  subst e1 e2
  obtain ⟨hd, hmono⟩ := Declared_set vt n' t' ht0
  refine ⟨⟨?_, ?_, ?_⟩, hmono⟩
  · rw [wrapped_wrap, hw]
  · intro h; rw [hw] at h; cases h
  · intro _
    exact ⟨n', rfl, hn0, varName_wrap n', hd⟩

theorem compileDirs_inv :
    ∀ (ds : List Str) (i : Nat) (acc : List Str) (vt : StrMap) (r : List Str × StrMap),
      compileDirs ds i acc vt = .ok r →
      (∀ n, Declared vt n → Declared r.2 n) ∧
      ∃ stored, r.1 = acc ++ stored ∧ List.Forall₂ (SegInv r.2) ds stored
  | [], _, acc, vt, r, h => by
    simp only [compileDirs] at h
    injection h with h
    subst h
    exact ⟨fun _ hn => hn, [], by simp, List.Forall₂.nil⟩
  | d :: ds, i, acc, vt, r, h => by
    rw [compileDirs] at h
    by_cases hw : wrapped d = true
    · rw [if_pos hw] at h
      cases hv : varDefn d with
      | ok nt =>
        obtain ⟨n, t⟩ := nt
        rw [hv] at h
        obtain ⟨hm, stored, e, hf⟩ := compileDirs_inv ds _ _ _ r h
        obtain ⟨hseg, hm0⟩ := SegInv_decl vt d n t hw hv
        refine ⟨fun k hk => hm k (hm0 k hk), (StartVar ++ n ++ EndVar) :: stored, ?_, ?_⟩
        · rw [e]; simp
        · exact List.Forall₂.cons (SegInv_mono _ _ _ _ hm hseg) hf
      | err e => rw [hv] at h; cases h
      | fault => rw [hv] at h; cases h
    · rw [if_neg hw] at h
      obtain ⟨hm, stored, e, hf⟩ := compileDirs_inv ds _ _ _ r h
      refine ⟨hm, d :: stored, ?_, ?_⟩
      · rw [e]; simp
      · exact List.Forall₂.cons (SegInv_literal _ d hw) hf

theorem compileBase_inv (b : Str) (vt : StrMap) (r : Str × StrMap)
    (h : compileBase b vt = .ok r) :
    (∀ n, Declared vt n → Declared r.2 n) ∧ SegInv r.2 b r.1 := by
  unfold compileBase at h
  by_cases hw : wrapped b = true
  · rw [if_pos hw] at h
    cases hv : varDefn b with
    | ok nt =>
      obtain ⟨n, t⟩ := nt
      rw [hv] at h
      injection h with h
      subst h
      obtain ⟨hseg, hm0⟩ := SegInv_decl vt b n t hw hv
      exact ⟨hm0, hseg⟩
    | err e => rw [hv] at h; cases h
    | fault => rw [hv] at h; cases h
  · rw [if_neg hw] at h
    injection h with h
    subst h
    exact ⟨fun _ hn => hn, SegInv_literal _ b hw⟩

theorem compileExt_inv (x : Str) (vt : StrMap) (r : Str × StrMap)
    (h : compileExt x vt = .ok r) :
    (∀ n, Declared vt n → Declared r.2 n) ∧ SegInv r.2 x r.1 := by
  unfold compileExt at h
  by_cases hne : x ≠ []
  · rw [if_pos hne] at h
    by_cases hw : wrapped x = true
    · rw [if_pos hw] at h
      cases hv : varDefn x with
      | ok nt =>
        obtain ⟨n, t⟩ := nt
        rw [hv] at h
        injection h with h
        subst h
        obtain ⟨hseg, hm0⟩ := SegInv_decl vt x n t hw hv
        exact ⟨hm0, hseg⟩
      | err e => rw [hv] at h; cases h
      | fault => rw [hv] at h; cases h
    · rw [if_neg hw] at h
      injection h with h
      subst h
      exact ⟨fun _ hn => hn, SegInv_literal _ x hw⟩
  · rw [if_neg hne] at h
    injection h with h
    subst h
    have hx : x = [] := by simpa using hne
    subst hx
    exact ⟨fun _ hn => hn, SegInv_literal _ [] (by decide)⟩

/-! ## Lemmas on `Resolve` -/

theorem token_cons (name : Str) :
    token name = '\x7b' :: '\x7b' :: (name ++ ['\x7d', '\x7d']) := rfl

theorem token_ne_nil (name : Str) : token name ≠ [] := by
  rw [token_cons]; simp

theorem resolveStep_token (res : Str) (kv : Str × Str) :
    resolveStep res kv = ReplaceAll res (token kv.1) kv.2 := resolveStep_eq res kv

theorem Resolve_nil (rdsl : RouteDSL) (s : Str) : Resolve rdsl [] s = s := rfl

theorem Resolve_cons (rdsl : RouteDSL) (kv : Str × Str) (m : StrMap) (s : Str) :
    Resolve rdsl (kv :: m) s = Resolve rdsl m (ReplaceAll s (token kv.1) kv.2) := by
  unfold Resolve
  rw [List.foldl_cons, resolveStep_token]

/-- No occurrence of a token starts inside text without an opening brace. -/
theorem ReplaceAll_no_open (k v : Str) :
    ∀ (w rest : Str), '\x7b' ∉ w →
      ReplaceAll (w ++ rest) (token k) v = w ++ ReplaceAll rest (token k) v
  | [], _, _ => rfl
  | c :: w, rest, h => by
    have hc : c ≠ '\x7b' := fun e => h (by simp [e])
    have hw : '\x7b' ∉ w := fun hm => h (List.mem_cons_of_mem _ hm)
    have hne : ('\x7b' == c) = false := by simpa using fun e : '\x7b' = c => hc e.symm
    have hp : (token k).isPrefixOf (c :: (w ++ rest)) = false := by
      rw [token_cons]
      simp [List.isPrefixOf, hne]
    rw [List.cons_append, ReplaceAll_cons_no_match _ _ _ _ hp, ReplaceAll_no_open k v w rest hw]
    rfl

/-- Two names without a closing brace that are followed by one at the same
place are equal. -/
theorem name_eq_of_prefix :
    ∀ (k n x y : Str), '\x7d' ∉ k → '\x7d' ∉ n →
      (k ++ '\x7d' :: x) <+: (n ++ '\x7d' :: y) → k = n
  | [], [], _, _, _, _, _ => rfl
  | [], c :: n, x, y, _, hn, h => by
    obtain ⟨t, ht⟩ := h
    simp at ht
    exact absurd ht.1.symm (fun e => hn (by simp [e]))
  | c :: k, [], x, y, hk, _, h => by
    obtain ⟨t, ht⟩ := h
    simp at ht
    exact absurd ht.1 (fun e => hk (by simp [e]))
  | c :: k, d :: n, x, y, hk, hn, h => by
    obtain ⟨t, ht⟩ := h
    simp at ht
    have hk' : '\x7d' ∉ k := fun hm => hk (List.mem_cons_of_mem _ hm)
    have hn' : '\x7d' ∉ n := fun hm => hn (List.mem_cons_of_mem _ hm)
    have := name_eq_of_prefix k n x y hk' hn' ⟨t, by simpa using ht.2⟩
    rw [ht.1, this]

/-- The token of another name does not start where a token starts. -/
theorem token_not_prefix (k n rest : Str) (hk : braceFree k) (hn : braceFree n)
    (hne : n ≠ k) : (token k).isPrefixOf (token n ++ rest) = false := by
  cases h : (token k).isPrefixOf (token n ++ rest)
  · rfl
  · exfalso
    rw [List.isPrefixOf_iff_prefix] at h
    obtain ⟨t, ht⟩ := h
    rw [token_cons, token_cons] at ht
    simp at ht
    have := name_eq_of_prefix k n ('\x7d' :: t) ('\x7d' :: rest) hk.2 hn.2
      ⟨[], by simpa using ht⟩
    exact hne this.symm

/-- An occurrence of the token of another name is stepped over unchanged. -/
theorem ReplaceAll_other_token (k v n rest : Str) (hk : braceFree k) (hn : braceFree n)
    (hne : n ≠ k) :
    ReplaceAll (token n ++ rest) (token k) v = token n ++ ReplaceAll rest (token k) v := by
  have h0 := token_not_prefix k n rest hk hn hne
  have e0 : token n ++ rest = '\x7b' :: ('\x7b' :: (n ++ ['\x7d', '\x7d'] ++ rest)) := by
    rw [token_cons]; simp
  have h1 : (token k).isPrefixOf ('\x7b' :: (n ++ ['\x7d', '\x7d'] ++ rest)) = false := by
    rw [token_cons]
    cases n with
    | nil => simp [List.isPrefixOf]
    | cons c n' =>
      have hc : c ≠ '\x7b' := fun e => hn.1 (by simp [e])
      have hne' : ('\x7b' == c) = false := by simpa using fun e : '\x7b' = c => hc e.symm
      simp [List.isPrefixOf, hne']
  have hw : '\x7b' ∉ n ++ ['\x7d', '\x7d'] := by
    intro hm
    rcases List.mem_append.mp hm with h | h
    · exact hn.1 h
    · revert h; decide
  rw [e0] at h0 ⊢
  rw [ReplaceAll_cons_no_match _ _ _ _ h0, ReplaceAll_cons_no_match _ _ _ _ h1,
    ReplaceAll_no_open k v _ rest hw, token_cons]
  rfl

theorem ReplaceAll_renderAll (k v : Str) (hk : braceFree k) :
    ∀ ps : List Piece, (∀ p ∈ ps, p.wf) →
      ReplaceAll (renderAll ps) (token k) v = renderAll (ps.map (Piece.subst1 k v))
  | [], _ => rfl
  | p :: ps, h => by
    have hp : p.wf := h p (List.mem_cons_self _ _)
    have hps : ∀ q ∈ ps, q.wf := fun q hq => h q (List.mem_cons_of_mem _ hq)
    have ih := ReplaceAll_renderAll k v hk ps hps
    cases p with
    | lit w =>
      simp only [renderAll, List.map_cons, Piece.subst1, Piece.render]
      rw [ReplaceAll_no_open k v w _ hp.1, ih]
    | var n =>
      by_cases hn : n = k
      · subst hn
        simp only [renderAll, List.map_cons, Piece.subst1, Piece.render, if_true]
        rw [ReplaceAll_match _ _ _ (token_ne_nil n), ih]
      · simp only [renderAll, List.map_cons, Piece.subst1, Piece.render, if_neg hn]
        rw [ReplaceAll_other_token k v n _ hk hp hn, ih]

theorem subst1_wf (k v : Str) (hv : braceFree v) (p : Piece) (hp : p.wf) :
    (p.subst1 k v).wf := by
  cases p with
  | lit w => exact hp
  | var n =>
    by_cases hn : n = k
    · simp only [Piece.subst1, if_pos hn]; exact hv
    · simp only [Piece.subst1, if_neg hn]; exact hp

theorem subst_cons (k v : Str) (m : StrMap) (p : Piece) :
    Piece.subst ((k, v) :: m) p = Piece.subst m (Piece.subst1 k v p) := by
  cases p with
  | lit w => rfl
  | var n =>
    by_cases hn : n = k
    · subst hn
      simp [Piece.subst, Piece.subst1, StrMap.get, List.lookup]
    · have hb : (n == k) = false := by simpa using hn
      simp [Piece.subst, Piece.subst1, StrMap.get, List.lookup, hn, hb]

/-- On a template of well-formed pieces, `Resolve` with brace-free names and
values is the substitution of the placeholders, piece by piece. -/
theorem Resolve_renderAll (rdsl : RouteDSL) :
    ∀ (m : StrMap) (ps : List Piece), (∀ p ∈ ps, p.wf) →
      (∀ e ∈ m, braceFree e.1 ∧ braceFree e.2) →
      Resolve rdsl m (renderAll ps) = renderAll (ps.map (Piece.subst m))
  | [], ps, _, _ => by
    have : ∀ p : Piece, Piece.subst [] p = p := by
      intro p
      cases p <;> rfl
    have hmap : ps.map (Piece.subst []) = ps := by
      rw [List.map_congr_left (fun p _ => this p)]
      simp
    rw [Resolve_nil, hmap]
  | (k, v) :: m, ps, hps, hm => by
    have hkv := hm (k, v) (List.mem_cons_self _ _)
    have hm' : ∀ e ∈ m, braceFree e.1 ∧ braceFree e.2 :=
      fun e he => hm e (List.mem_cons_of_mem _ he)
    have hps' : ∀ p ∈ ps.map (Piece.subst1 k v), p.wf := by
      intro p hp
      obtain ⟨q, hq, e⟩ := List.mem_map.mp hp
      rw [← e]
      exact subst1_wf k v hkv.2 q (hps q hq)
    rw [Resolve_cons, ReplaceAll_renderAll k v hkv.1 ps hps,
      Resolve_renderAll rdsl m _ hps' hm', List.map_map]
    congr 1
    apply List.map_congr_left
    intro p _
    simp [subst_cons]

theorem lookup_mem : ∀ (m : StrMap) (n v : Str), m.lookup n = some v → (n, v) ∈ m
  | [], _, _, h => by simp [List.lookup] at h
  | (k, w) :: m, n, v, h => by
    by_cases hn : n = k
    · subst hn
      simp [List.lookup] at h
      simp [h]
    · have hb : (n == k) = false := by simpa using hn
      simp [List.lookup, hb] at h
      exact List.mem_cons_of_mem _ (lookup_mem m n v h)

theorem mem_lookup : ∀ (m : StrMap) (n v : Str), (m.map Prod.fst).Nodup → (n, v) ∈ m →
    m.lookup n = some v
  | [], _, _, _, h => by simp at h
  | (k, w) :: m, n, v, hnd, h => by
    simp only [List.map_cons, List.nodup_cons] at hnd
    rcases List.mem_cons.mp h with h1 | h1
    · injection h1 with e1 e2
      subst e1 e2
      simp [List.lookup]
    · have hn : n ≠ k := by
        intro e
        subst e
        exact hnd.1 (List.mem_map.mpr ⟨(n, v), h1, rfl⟩)
      have hb : (n == k) = false := by simpa using hn
      simp [List.lookup, hb]
      exact mem_lookup m n v hnd.2 h1

theorem get_perm (m1 m2 : StrMap) (hp : m1.Perm m2) (hnd : (m1.map Prod.fst).Nodup)
    (n : Str) : m1.get n = m2.get n := by
  have hnd2 : (m2.map Prod.fst).Nodup := (hp.map Prod.fst).nodup_iff.mp hnd
  unfold StrMap.get
  cases h1 : m1.lookup n with
  | some v =>
    exact (mem_lookup m2 n v hnd2 (hp.mem_iff.mp (lookup_mem m1 n v h1))).symm
  | none =>
    cases h2 : m2.lookup n with
    | none => rfl
    | some v =>
      have := mem_lookup m1 n v hnd (hp.mem_iff.mpr (lookup_mem m2 n v h2))
      rw [h1] at this
      cases this

theorem prefix_before_open :
    ∀ (w a r : Str), '\x7b' ∉ w → w <+: a ++ '\x7b' :: r → w <+: a
  | [], a, _, _, _ => List.nil_prefix
  | c :: w, [], r, hw, h => by
    obtain ⟨t, ht⟩ := h
    simp at ht
    exact absurd ht.1 (fun e => hw (by simp [e]))
  | c :: w, d :: a, r, hw, h => by
    obtain ⟨t, ht⟩ := h
    simp at ht
    have hw' : '\x7b' ∉ w := fun hm => hw (List.mem_cons_of_mem _ hm)
    obtain ⟨u, hu⟩ := prefix_before_open w a r hw' ⟨t, by simpa using ht.2⟩
    exact ⟨u, by simp [ht.1, hu]⟩

/-- An occurrence of the token of `k` that starts before an occurrence of the
token of another name ends before it. -/
theorem token_prefix_before (k n a b : Str) (hk : braceFree k) (hn : braceFree n)
    (hne : n ≠ k) (h : token k <+: a ++ (token n ++ b)) : token k <+: a := by
  have hw : '\x7b' ∉ k ++ ['\x7d', '\x7d'] := by
    intro hm
    rcases List.mem_append.mp hm with h1 | h1
    · exact hk.1 h1
    · revert h1; decide
  cases a with
  | nil =>
    have := token_not_prefix k n b hk hn hne
    rw [← List.isPrefixOf_iff_prefix] at h
    simp only [List.nil_append] at h
    rw [this] at h
    cases h
  | cons x a1 =>
    cases a1 with
    | nil =>
      exfalso
      obtain ⟨t, ht⟩ := h
      rw [token_cons, token_cons] at ht
      simp at ht
      have hp : (k ++ ['\x7d', '\x7d']) <+: [] ++ '\x7b' :: (n ++ '\x7d' :: '\x7d' :: b) :=
        ⟨t, by simpa using ht.2⟩
      have := prefix_before_open _ _ _ hw hp
      have hnil := List.prefix_nil.mp this
      simp at hnil
    | cons y a2 =>
      obtain ⟨t, ht⟩ := h
      rw [token_cons] at ht ⊢
      rw [token_cons] at ht
      simp at ht
      have hp : (k ++ ['\x7d', '\x7d']) <+: a2 ++ '\x7b' :: ('\x7b' :: (n ++ '\x7d' :: '\x7d' :: b)) :=
        ⟨t, by simpa using ht.2.2⟩
      obtain ⟨u, hu⟩ := prefix_before_open _ _ _ hw hp
      exact ⟨u, by simp [← ht.1, ← ht.2.1, ← hu]⟩

/-- Replacing the token of `k` keeps an occurrence of the token of another
name. -/
theorem ReplaceAll_keeps_token (k v n b : Str) (hk : braceFree k) (hn : braceFree n)
    (hne : n ≠ k) :
    ∀ (len : Nat) (a : Str), a.length ≤ len →
      ∃ a' b', ReplaceAll (a ++ (token n ++ b)) (token k) v = a' ++ (token n ++ b')
  | 0, a, hl => by
    have : a = [] := List.length_eq_zero.mp (Nat.le_zero.mp hl)
    subst this
    exact ⟨[], ReplaceAll b (token k) v, by
      simp only [List.nil_append]
      exact ReplaceAll_other_token k v n b hk hn hne⟩
  | len + 1, [], _ =>
    ⟨[], ReplaceAll b (token k) v, by
      simp only [List.nil_append]
      exact ReplaceAll_other_token k v n b hk hn hne⟩
  | len + 1, c :: a0, hl => by
    have hl0 : a0.length ≤ len := by simpa using hl
    cases hp : (token k).isPrefixOf (c :: a0 ++ (token n ++ b))
    · obtain ⟨a', b', e⟩ := ReplaceAll_keeps_token k v n b hk hn hne len a0 hl0
      refine ⟨c :: a', b', ?_⟩
      rw [List.cons_append, ReplaceAll_cons_no_match _ _ _ _ (by simpa using hp), e]
      rfl
    · have hpre := token_prefix_before k n (c :: a0) b hk hn hne
        (List.isPrefixOf_iff_prefix.mp hp)
      obtain ⟨a2, ha2⟩ := hpre
      have hlen : a2.length ≤ len := by
        have h1 : (token k ++ a2).length = (c :: a0).length := by rw [ha2]
        have h2 : 0 < (token k).length := List.length_pos.mpr (token_ne_nil k)
        simp only [List.length_append, List.length_cons] at h1
        omega
      obtain ⟨a', b', e⟩ := ReplaceAll_keeps_token k v n b hk hn hne len a2 hlen
      refine ⟨v ++ a', b', ?_⟩
      rw [← ha2, List.append_assoc, ReplaceAll_match _ _ _ (token_ne_nil k), e]
      simp

theorem contains_of_occurrence (t : Str) (ht : t ≠ []) :
    ∀ (a b : Str), Contains (a ++ (t ++ b)) t = true
  | [], b => by
    unfold Contains
    cases t with
    | nil => exact absurd rfl ht
    | cons c cs =>
      have hp : (c :: cs).isPrefixOf (c :: (cs ++ b)) = true := by
        rw [List.isPrefixOf_iff_prefix]
        exact List.prefix_append (c :: cs) b
      simp only [List.nil_append, List.cons_append]
      rw [cut, if_pos hp]
      rfl
  | x :: a, b => by
    have ih := contains_of_occurrence t ht a b
    unfold Contains at ih ⊢
    rw [List.cons_append, cut]
    cases hp : t.isPrefixOf (x :: (a ++ (t ++ b)))
    · cases hr : cut t (a ++ (t ++ b)) with
      | none => rw [hr] at ih; cases ih
      | some r => rfl
    · rfl

theorem occurrence_of_contains (s t : Str) (h : Contains s t = true) :
    ∃ a b, s = a ++ (t ++ b) := by
  unfold Contains at h
  cases hr : cut t s with
  | none => rw [hr] at h; cases h
  | some r =>
    obtain ⟨a, b⟩ := r
    exact ⟨a, b, by rw [cut_sound t s a b hr]; simp⟩

theorem ReplaceAll_keeps_contains (k v n s : Str) (hk : braceFree k) (hn : braceFree n)
    (hne : n ≠ k) (h : Contains s (token n) = true) :
    Contains (ReplaceAll s (token k) v) (token n) = true := by
  obtain ⟨a, b, e⟩ := occurrence_of_contains s (token n) h
  obtain ⟨a', b', e'⟩ := ReplaceAll_keeps_token k v n b hk hn hne a.length a (Nat.le_refl _)
  rw [e, e']
  exact contains_of_occurrence (token n) (token_ne_nil n) a' b'

theorem Resolve_unchanged (rdsl : RouteDSL) :
    ∀ (m : StrMap) (s : Str), (∀ e ∈ m, Contains s (token e.1) = false) →
      Resolve rdsl m s = s
  | [], _, _ => rfl
  | kv :: m, s, h => by
    rw [Resolve_cons, ReplaceAll_of_not_contains _ _ _ (h kv (List.mem_cons_self _ _))]
    exact Resolve_unchanged rdsl m s (fun e he => h e (List.mem_cons_of_mem _ he))

theorem Resolve_keeps_contains (rdsl : RouteDSL) (n : Str) (hn : braceFree n) :
    ∀ (m : StrMap) (s : Str), (∀ e ∈ m, braceFree e.1) → (∀ e ∈ m, e.1 ≠ n) →
      Contains s (token n) = true → Contains (Resolve rdsl m s) (token n) = true
  | [], _, _, _, h => h
  | kv :: m, s, hb, hk, h => by
    rw [Resolve_cons]
    apply Resolve_keeps_contains rdsl n hn m _
      (fun e he => hb e (List.mem_cons_of_mem _ he))
      (fun e he => hk e (List.mem_cons_of_mem _ he))
    exact ReplaceAll_keeps_contains kv.1 kv.2 n s (hb kv (List.mem_cons_self _ _)) hn
      (fun e => hk kv (List.mem_cons_self _ _) e.symm) h

/-! ## Lemmas on the mapping of `Eval` -/

theorem evalElement_name (rdsl : RouteDSL) (seg c : Str)
    (hok : (evalElement rdsl seg c).2.2 = true) :
    (evalElement rdsl seg c).1 = if HasPrefix seg StartVar = true then varName seg else [] := by
  unfold evalElement at hok ⊢
  by_cases hp : HasPrefix seg StartVar = true
  · rw [if_pos hp] at hok ⊢
    rw [if_pos hp]
    cases ht : rdsl.VarToType.get (varName seg) with
    | none => simp [ht] at hok
    | some t =>
      cases hf : rdsl.TypeFn t with
      | none => simp [ht, hf] at hok
      | some fn =>
        simp only [ht, hf] at hok ⊢
        cases hv : (fn t c).2
        · simp [hv] at hok
        · simp
  · rw [if_neg hp, if_neg hp]

theorem store_eq_applyWrites (rdsl : RouteDSL) (seg c : Str) (m : StrMap)
    (hok : (evalElement rdsl seg c).2.2 = true) :
    store m (evalElement rdsl seg c).1 (evalElement rdsl seg c).2.1
      = applyWrites m (segWrite rdsl seg c) := by
  have hn := evalElement_name rdsl seg c hok
  unfold store segWrite applyWrites
  by_cases hp : HasPrefix seg StartVar = true
  · rw [if_pos hp] at hn
    by_cases hv : varName seg = []
    · simp [hn, hv]
    · simp [hn, hv, hp, hok]
  · rw [if_neg hp] at hn
    simp [hn, hp]

theorem segWrite_of_fail (rdsl : RouteDSL) (seg c : Str)
    (hok : (evalElement rdsl seg c).2.2 = false) : segWrite rdsl seg c = [] := by
  simp [segWrite, hok]

theorem applyWrites_append (m : StrMap) (ws1 ws2 : List (Str × Str)) :
    applyWrites m (ws1 ++ ws2) = applyWrites (applyWrites m ws1) ws2 := by
  simp [applyWrites, List.foldl_append]

theorem evalDirs_writes (rdsl : RouteDSL) :
    ∀ (ds ps : List Str) (m m' : StrMap), evalDirs rdsl ds ps m = some m' →
      m' = applyWrites m (List.zipWith (segWrite rdsl) ds ps).flatten
  | [], _, m, m', h => by
    simp only [evalDirs] at h
    injection h with h
    simp [applyWrites, ← h]
  | _ :: _, [], _, _, h => by simp [evalDirs] at h
  | d :: ds, p :: ps, m, m', h => by
    rw [evalDirs] at h
    cases hok : (evalElement rdsl d p).2.2
    · simp [hok] at h
    · simp only [hok, Bool.not_true, Bool.false_eq_true, if_false] at h
      have := evalDirs_writes rdsl ds ps _ m' h
      rw [this, store_eq_applyWrites rdsl d p m hok]
      simp [applyWrites_append]

/-- A successful `Eval` returns the map obtained by making the writes of
`evalWrites`, in their order, on the empty map. -/
theorem Eval_mapping_writes (rdsl : RouteDSL) (pathValue : Str) (m : StrMap)
    (h : Eval rdsl pathValue = (some m, true)) :
    m = applyWrites [] (evalWrites rdsl pathValue) := by
  unfold Eval at h
  simp only [] at h
  by_cases hlen : (splitDirs (pathSplit pathValue).1).length = rdsl.Dirs.length
  · rw [if_neg (by simpa using hlen)] at h
    cases hd : evalDirs rdsl rdsl.Dirs (splitDirs (pathSplit pathValue).1) [] with
    | none => rw [hd] at h; simp at h
    | some m1 =>
      rw [hd] at h
      simp only [] at h
      have hm1 := evalDirs_writes rdsl _ _ _ m1 hd
      cases hb : (evalElement rdsl rdsl.Base (candidates rdsl (pathSplit pathValue).2).1).2.2
      · simp [hb] at h
      · simp only [hb, if_true] at h
        injection h with h _
        injection h with h
        rw [← h, store_eq_applyWrites rdsl _ _ _ hb]
        unfold evalWrites
        rw [applyWrites_append, applyWrites_append, ← hm1]
        congr 1
        unfold evalExt
        by_cases hx : rdsl.Ext = []
        · simp [hx, applyWrites]
        · simp only [ne_eq, hx, not_false_eq_true, if_true]
          cases he : (evalElement rdsl rdsl.Ext (candidates rdsl (pathSplit pathValue).2).2).2.2
          · simp [segWrite_of_fail rdsl _ _ he, applyWrites]
          · simp only [if_true]
            exact store_eq_applyWrites rdsl _ _ m1 he
  · rw [if_pos (by simpa using hlen)] at h
    simp at h

theorem lookup_append (k : Str) :
    ∀ (l1 l2 : List (Str × Str)),
      (l1 ++ l2).lookup k = match l1.lookup k with
        | some v => some v
        | none => l2.lookup k
  | [], _ => by simp [List.lookup]
  | (k0, v0) :: l1, l2 => by
    by_cases h : k = k0
    · subst h
      simp [List.lookup]
    · have hb : (k == k0) = false := by simpa using h
      simp [List.lookup, hb, lookup_append k l1 l2]

/-- After a sequence of writes the value of a key is the one written last, and
the former value when the key was not written. -/
theorem applyWrites_get (k : Str) :
    ∀ (ws : List (Str × Str)) (m : StrMap),
      (applyWrites m ws).get k = match ws.reverse.lookup k with
        | some v => some v
        | none => m.get k
  | [], m => by simp [applyWrites, List.lookup]
  | (k0, v0) :: ws, m => by
    have ih := applyWrites_get k ws (m.set k0 v0)
    have e : applyWrites m ((k0, v0) :: ws) = applyWrites (m.set k0 v0) ws := rfl
    rw [e, ih, List.reverse_cons, lookup_append]
    cases hl : ws.reverse.lookup k with
    | some v => rfl
    | none =>
      simp only []
      rw [StrMap.get_set]
      by_cases h : k = k0
      · subst h
        simp [List.lookup]
      · have hb : (k == k0) = false := by simpa using h
        simp [List.lookup, h, hb]

/-- The mapping of a successful `Eval`, key by key: the value written last
among the writes of `evalWrites`, and no entry for a name that was not
written. -/
theorem Eval_mapping_get (rdsl : RouteDSL) (pathValue : Str) (m : StrMap)
    (h : Eval rdsl pathValue = (some m, true)) (k : Str) :
    m.get k = (evalWrites rdsl pathValue).reverse.lookup k := by
  rw [Eval_mapping_writes rdsl pathValue m h, applyWrites_get]
  cases (evalWrites rdsl pathValue).reverse.lookup k <;> rfl

/-! ## Lemmas on patterns with literal segments only -/

/-- For a pattern none of whose directory segments and whose basename does not
begin with the opening delimiter, `Eval` succeeds exactly
when the directory components of the path are, in number and one by one, the
directory segments of the pattern and the basename candidate is the basename of
the pattern; the basename candidate is the final component of the path, without
its last dot-suffix when the pattern has an extension segment. -/
theorem Eval_literal_iff (rdsl : RouteDSL) (pathValue : Str)
    (hd : ∀ d ∈ rdsl.Dirs, HasPrefix d StartVar = false)
    (hb : HasPrefix rdsl.Base StartVar = false) :
    (Eval rdsl pathValue).2 = true ↔
      (splitDirs (pathSplit pathValue).1 = rdsl.Dirs ∧
        (if rdsl.Ext = [] then (pathSplit pathValue).2
          else TrimSuffix (pathSplit pathValue).2 (pathExt (pathSplit pathValue).2))
          = rdsl.Base) := by
  have hcand : (candidates rdsl (pathSplit pathValue).2).1 =
      (if rdsl.Ext = [] then (pathSplit pathValue).2
        else TrimSuffix (pathSplit pathValue).2 (pathExt (pathSplit pathValue).2)) := by
    unfold candidates
    split <;> rfl
  rw [← hcand]
  unfold Eval
  simp only []
  by_cases hlen : (splitDirs (pathSplit pathValue).1).length = rdsl.Dirs.length
  · rw [if_neg (by simpa using hlen)]
    rw [evalDirs_literal rdsl _ _ [] hd hlen.symm]
    by_cases heq : rdsl.Dirs = splitDirs (pathSplit pathValue).1
    · rw [if_pos heq, evalElement_literal rdsl _ _ hb]
      by_cases hbase : rdsl.Base = (candidates rdsl (pathSplit pathValue).2).1
      · simp [hbase, ← heq]
      · have hbase2 : ¬ (candidates rdsl (pathSplit pathValue).2).1 = rdsl.Base :=
          fun h => hbase h.symm
        simp [hbase, hbase2]
    · have heq2 : ¬ splitDirs (pathSplit pathValue).1 = rdsl.Dirs := fun h => heq h.symm
      simp [heq, heq2]
  · rw [if_pos (by simpa using hlen)]
    have : ¬ splitDirs (pathSplit pathValue).1 = rdsl.Dirs := fun h => hlen (by rw [h])
    simp [this]

theorem countAux_of_not_contains (sep : Str) :
    ∀ s : Str, cut sep s = none → countAux sep s 0 = 0
  | [], _ => rfl
  | c :: cs, h => by
    obtain ⟨h1, h2⟩ := cut_none_cons sep c cs h
    rw [countAux]
    simp only [h1, Bool.false_eq_true, if_false]
    exact countAux_of_not_contains sep cs h2

theorem cut_none_of_not_contains (s sep : Str) (h : Contains s sep = false) :
    cut sep s = none := by
  unfold Contains at h
  cases hr : cut sep s with
  | none => rfl
  | some r => simp [hr] at h

theorem HasPrefix_of_not_contains (s : Str) (h : Contains s StartVar = false) :
    HasPrefix s StartVar = false := by
  cases s with
  | nil => decide
  | cons c cs => exact (cut_none_cons StartVar c cs (cut_none_of_not_contains _ _ h)).1

theorem wrapped_of_not_contains (s : Str) (h : Contains s StartVar = false) :
    wrapped s = false := by
  simp [wrapped, HasPrefix_of_not_contains s h]

theorem splitBaseExt_of_not_contains (base : Str) (h : Contains base StartVar = false) :
    splitBaseExt base = some (base, []) := by
  have hc : Count base StartVar = 0 := by
    unfold Count
    rw [if_neg (by decide)]
    exact countAux_of_not_contains StartVar base (cut_none_of_not_contains _ _ h)
  unfold splitBaseExt
  rw [if_neg (by rw [hc]; decide)]

theorem stored_eq_raw (vt : StrMap) :
    ∀ (raw stored : List Str), List.Forall₂ (SegInv vt) raw stored →
      (∀ d ∈ raw, wrapped d = false) → stored = raw
  | _, _, List.Forall₂.nil, _ => rfl
  | d :: raw, e :: stored, List.Forall₂.cons hseg hrest, h => by
    have h1 : e = d := hseg.2.1 (h d (List.mem_cons_self _ _))
    have h2 := stored_eq_raw vt raw stored hrest (fun x hx => h x (List.mem_cons_of_mem _ hx))
    rw [h1, h2]

/-- On a source none of whose directory components and whose final component
does not hold the opening delimiter, the compiled pattern stores the components
unchanged, has no extension segment, and `Eval` succeeds exactly on the paths
whose directory components and final component are those of the pattern. -/
theorem Eval_literal_source (reg : TypeRegistry) (src : Str) (p : RouteDSL)
    (h : NewRouteDSL reg src = .ok p)
    (hd : ∀ d ∈ splitDirs (pathSplit src).1, Contains d StartVar = false)
    (hb : Contains (pathSplit src).2 StartVar = false) :
    p.Dirs = splitDirs (pathSplit src).1 ∧ p.Base = (pathSplit src).2 ∧ p.Ext = [] ∧
    ∀ pathValue, ((Eval p pathValue).2 = true ↔
      (splitDirs (pathSplit pathValue).1 = p.Dirs ∧ (pathSplit pathValue).2 = p.Base)) := by
  obtain ⟨b, x, r1, r2, r3, hs, h1, h2, h3, hp⟩ := NewRouteDSL_ok_inv reg src p h
  rw [splitBaseExt_of_not_contains _ hb] at hs
  injection hs with hs
  injection hs with e1 e2
  subst e1 e2
  obtain ⟨_, stored, es, hf⟩ := compileDirs_inv _ _ _ _ r1 h1
  have hdirs : r1.1 = splitDirs (pathSplit src).1 := by
    rw [es, List.nil_append]
    exact stored_eq_raw r1.2 _ _ hf (fun d hdm => wrapped_of_not_contains d (hd d hdm))
  have hbase : r2.1 = (pathSplit src).2 :=
    (compileBase_inv _ _ r2 h2).2.2.1 (wrapped_of_not_contains _ hb)
  have hext : r3.1 = [] := (compileExt_inv _ _ r3 h3).2.2.1 (by decide)
  have hD : p.Dirs = splitDirs (pathSplit src).1 := by rw [hp]; exact hdirs
  have hB : p.Base = (pathSplit src).2 := by rw [hp]; exact hbase
  have hE : p.Ext = [] := by rw [hp]; exact hext
  refine ⟨hD, hB, hE, fun pathValue => ?_⟩
  have key := Eval_literal_iff p pathValue
    (fun d hdm => HasPrefix_of_not_contains d (hd d (hD ▸ hdm)))
    (by rw [hB]; exact HasPrefix_of_not_contains _ hb)
  rw [if_pos hE] at key
  exact key

/-! ## Claims -/

/-- C1, failing input: the source `/x{{y{{z}}w` has only literal segments (no
segment is wrapped in the delimiter pair and no variable is declared), yet the
count of opening delimiters splits its final component into the basename
`x{{y{{z}}` and the extension `w`.  The compiled pattern then matches the path
`/x{{y{{z}}.w`, whose final component is neither its basename nor the final
component of the source, and it does not match its own source as a path. -/
theorem C1_literal_component_split :
    NewRouteDSL noTypes srcLiteralExt = .ok patLiteralExt ∧
    literalSource srcLiteralExt = true ∧
    patLiteralExt.VarToType = [] ∧
    (Eval patLiteralExt pathLiteralExt).2 = true ∧
    ¬ (splitDirs (pathSplit pathLiteralExt).1 = patLiteralExt.Dirs ∧
        (pathSplit pathLiteralExt).2 = patLiteralExt.Base) ∧
    (pathSplit pathLiteralExt).2 ≠ (pathSplit srcLiteralExt).2 ∧
    (Eval patLiteralExt srcLiteralExt).2 = false :=
  ⟨rfl, by decide, by decide, by decide, by decide, by decide, by decide⟩

/-- C2: with a registry whose entry `int` is the validator `v`, the source
`/users/{{id int}}/profile` compiles, and for a candidate `c` without a slash
`Eval` on `/users/c/profile` succeeds exactly when `v` accepts `c`; the mapping
then holds the single entry `id`, with the value `v` returned, and there is no
mapping when `v` rejects `c`. -/
theorem C2_users_profile (reg : TypeRegistry) (v : EvalType) (c : Str)
    (hv : reg "int".toList = some v) (hc : '/' ∉ c) :
    ∃ p, NewRouteDSL reg srcUsers = .ok p ∧
      Eval p ("/users/".toList ++ c ++ "/profile".toList) =
        if (v "int".toList c).2 = true
        then (some [("id".toList, (v "int".toList c).1)], true)
        else (none, false) := by
  refine ⟨patUsers reg, rfl, ?_⟩
  have e1 : "/users/".toList ++ c ++ "/profile".toList =
      ("/users/".toList ++ c) ++ '/' :: "profile".toList := rfl
  have hs : pathSplit ("/users/".toList ++ c ++ "/profile".toList) =
      ("/users/".toList ++ c ++ ['/'], "profile".toList) := by
    rw [e1]
    exact pathSplit_append_slash _ _ (by decide)
  have hd : splitDirs ("/users/".toList ++ c ++ ['/']) = ["users".toList, c] := by
    unfold splitDirs
    have e2 : "/users/".toList ++ c ++ ['/'] = ['/'] ++ ("users/".toList ++ c ++ ['/']) := rfl
    rw [e2, TrimPrefix_append, TrimSuffix_append]
    have e3 : "users/".toList ++ c = "users".toList ++ '/' :: c := rfl
    rw [e3]
    unfold Split
    rw [splitAux_slash _ _ _ (by decide), splitAux_slash_free _ _ hc]
    rfl
  have hdirs : (patUsers reg).Dirs = ["users".toList, "\x7b\x7bid\x7d\x7d".toList] := rfl
  have hbase : (patUsers reg).Base = "profile".toList := rfl
  have hext : (patUsers reg).Ext = [] := rfl
  have h1 : evalElement (patUsers reg) "users".toList "users".toList = ([], [], true) := by
    rw [evalElement_literal _ _ _ (by decide)]
    rfl
  have h2 : evalElement (patUsers reg) "\x7b\x7bid\x7d\x7d".toList c =
      if (v "int".toList c).2 = true then ("id".toList, (v "int".toList c).1, true)
      else ([], [], false) := by
    rw [evalElement_var (patUsers reg) "\x7b\x7bid\x7d\x7d".toList c "int".toList v
      (by decide) rfl hv]
    rfl
  have h3 : evalElement (patUsers reg) "profile".toList "profile".toList = ([], [], true) := by
    rw [evalElement_literal _ _ _ (by decide)]
    rfl
  unfold Eval
  simp only [hs, hd, hdirs, hbase, candidates, hext, if_true, evalExt]
  rw [if_neg (by simp)]
  simp only [evalDirs, h1, h2, h3]
  cases hok : (v "int".toList c).2
  · simp
  · simp [store]
    rfl

/-- Witness for C2: the registry `intTypes` and the candidate `42`. -/
theorem C2_users_profile_witness :
    intTypes "int".toList = some digitsOnly ∧ '/' ∉ "42".toList ∧
    ∃ p, NewRouteDSL intTypes srcUsers = .ok p ∧
      Eval p ("/users/".toList ++ "42".toList ++ "/profile".toList) =
        if (digitsOnly "int".toList "42".toList).2 = true
        then (some [("id".toList, (digitsOnly "int".toList "42".toList).1)], true)
        else (none, false) :=
  ⟨rfl, by decide, C2_users_profile intTypes digitsOnly "42".toList rfl (by decide)⟩

/-- C3: with a registry whose entry `string` is a validator that accepts
`hello` and returns it unchanged, the source
`/posts/{{slug string}}{{ext string}}` compiles and `Eval` on
`/posts/hello.html` succeeds with `slug` mapped to `hello`, whatever the
validator answers for the extension candidate `.html`: when it rejects it the
mapping has no entry `ext`, when it accepts it `ext` is mapped to the value it
returned. -/
theorem C3_posts_slug (reg : TypeRegistry) (v : EvalType)
    (hv : reg "string".toList = some v)
    (hh : v "string".toList "hello".toList = ("hello".toList, true)) :
    ∃ p m, NewRouteDSL reg srcPosts = .ok p ∧
      Eval p "/posts/hello.html".toList = (some m, true) ∧
      m.get "slug".toList = some "hello".toList ∧
      ((v "string".toList ".html".toList).2 = false → m.get "ext".toList = none) ∧
      ((v "string".toList ".html".toList).2 = true →
        m.get "ext".toList = some (v "string".toList ".html".toList).1) := by
  have hs : pathSplit "/posts/hello.html".toList =
      ("/posts/".toList, "hello.html".toList) := by decide
  have hd : splitDirs "/posts/".toList = ["posts".toList] := by decide
  have hcand : candidates (patPosts reg) "hello.html".toList =
      ("hello".toList, ".html".toList) := rfl
  have hdirs : (patPosts reg).Dirs = ["posts".toList] := rfl
  have hbase : (patPosts reg).Base = "\x7b\x7bslug\x7d\x7d".toList := rfl
  have hext : (patPosts reg).Ext = "\x7b\x7bext\x7d\x7d".toList := rfl
  have h1 : evalElement (patPosts reg) "posts".toList "posts".toList = ([], [], true) := by
    rw [evalElement_literal _ _ _ (by decide)]
    rfl
  have h2 : evalElement (patPosts reg) "\x7b\x7bext\x7d\x7d".toList ".html".toList =
      if (v "string".toList ".html".toList).2 = true
      then ("ext".toList, (v "string".toList ".html".toList).1, true)
      else ([], [], false) := by
    rw [evalElement_var (patPosts reg) "\x7b\x7bext\x7d\x7d".toList ".html".toList
      "string".toList v (by decide) rfl hv]
    rfl
  have h3 : evalElement (patPosts reg) "\x7b\x7bslug\x7d\x7d".toList "hello".toList =
      ("slug".toList, "hello".toList, true) := by
    rw [evalElement_var (patPosts reg) "\x7b\x7bslug\x7d\x7d".toList "hello".toList
      "string".toList v (by decide) rfl hv, hh]
    rfl
  have hne : (patPosts reg).Ext ≠ [] := by rw [hext]; decide
  cases hok : (v "string".toList ".html".toList).2
  · refine ⟨patPosts reg, [("slug".toList, "hello".toList)], rfl, ?_, by decide, ?_, ?_⟩
    · unfold Eval
      simp only [hs, hd, hcand, hdirs, hbase]
      rw [if_neg (by simp)]
      simp only [evalDirs, evalExt, h1, h2, h3, hok, hext]
      simp [store]
      rfl
    · intro _; decide
    · intro h; cases h
  · refine ⟨patPosts reg,
      [("ext".toList, (v "string".toList ".html".toList).1),
        ("slug".toList, "hello".toList)], rfl, ?_, ?_, ?_, ?_⟩
    · unfold Eval
      simp only [hs, hd, hcand, hdirs, hbase]
      rw [if_neg (by simp)]
      simp only [evalDirs, evalExt, h1, h2, h3, hok, hext]
      simp [store]
      rfl
    · rfl
    · intro h; cases h
    · intro _; rfl

/-- Witness for C3: the registry `stringTypes`, whose validator accepts
everything. -/
theorem C3_posts_slug_witness :
    stringTypes "string".toList = some acceptAll ∧
    acceptAll "string".toList "hello".toList = ("hello".toList, true) ∧
    ∃ p m, NewRouteDSL stringTypes srcPosts = .ok p ∧
      Eval p "/posts/hello.html".toList = (some m, true) ∧
      m.get "slug".toList = some "hello".toList ∧
      ((acceptAll "string".toList ".html".toList).2 = false → m.get "ext".toList = none) ∧
      ((acceptAll "string".toList ".html".toList).2 = true →
        m.get "ext".toList = some (acceptAll "string".toList ".html".toList).1) :=
  ⟨rfl, rfl, C3_posts_slug stringTypes acceptAll rfl rfl⟩

/-- C4: when the number of directory components of the path differs from the
number of directory segments of the pattern, `Eval` returns no mapping and
failure, whatever the segments, the components and the registry are. -/
theorem C4_arity_mismatch (rdsl : RouteDSL) (pathValue : Str)
    (h : (splitDirs (pathSplit pathValue).1).length ≠ rdsl.Dirs.length) :
    Eval rdsl pathValue = (none, false) := by
  unfold Eval
  simp only []
  rw [if_pos h]

/-- Witness for C4: the pattern of `/a/{{id int}}` against the path `/a/b/c`. -/
theorem C4_arity_mismatch_witness :
    NewRouteDSL intTypes srcAId = .ok patAId ∧
    (splitDirs (pathSplit "/a/b/c".toList).1).length ≠ patAId.Dirs.length ∧
    Eval patAId "/a/b/c".toList = (none, false) :=
  ⟨rfl, by decide, C4_arity_mismatch patAId "/a/b/c".toList (by decide)⟩

/-- C5: when the directory arity matches and every directory segment evaluates
successfully against the component at its position, the success flag of `Eval`
is the flag of the basename evaluation, and the mapping is the one written by
the directory loop, then by the extension segment only if the pattern has one
and its evaluation succeeded, then by the basename if its evaluation
succeeded. -/
theorem C5_success_is_basename (rdsl : RouteDSL) (pathValue : Str)
    (harity : (splitDirs (pathSplit pathValue).1).length = rdsl.Dirs.length)
    (hdirs : ∀ e ∈ rdsl.Dirs.zip (splitDirs (pathSplit pathValue).1),
      (evalElement rdsl e.1 e.2).2.2 = true) :
    (Eval rdsl pathValue).2 =
      (evalElement rdsl rdsl.Base (candidates rdsl (pathSplit pathValue).2).1).2.2 ∧
    ∃ m1, evalDirs rdsl rdsl.Dirs (splitDirs (pathSplit pathValue).1) [] = some m1 ∧
      (Eval rdsl pathValue).1 = some
        (let rb := evalElement rdsl rdsl.Base (candidates rdsl (pathSplit pathValue).2).1
         let re := evalElement rdsl rdsl.Ext (candidates rdsl (pathSplit pathValue).2).2
         let m2 := if rdsl.Ext ≠ [] ∧ re.2.2 = true then store m1 re.1 re.2.1 else m1
         if rb.2.2 = true then store m2 rb.1 rb.2.1 else m2) := by
  obtain ⟨m1, hm1⟩ := evalDirs_isSome rdsl rdsl.Dirs _ [] harity.symm hdirs
  have hm2 : evalExt rdsl (candidates rdsl (pathSplit pathValue).2).2 m1 =
      (if rdsl.Ext ≠ [] ∧
          (evalElement rdsl rdsl.Ext (candidates rdsl (pathSplit pathValue).2).2).2.2 = true
        then store m1 (evalElement rdsl rdsl.Ext (candidates rdsl (pathSplit pathValue).2).2).1
          (evalElement rdsl rdsl.Ext (candidates rdsl (pathSplit pathValue).2).2).2.1
        else m1) := by
    unfold evalExt
    by_cases hx : rdsl.Ext = []
    · simp [hx]
    · by_cases ho :
        (evalElement rdsl rdsl.Ext (candidates rdsl (pathSplit pathValue).2).2).2.2 = true
      · simp [hx, ho]
      · simp [hx, ho]
  refine ⟨?_, m1, hm1, ?_⟩
  · unfold Eval
    simp only []
    rw [if_neg (by simpa using harity), hm1]
    simp only []
    split <;> rfl
  · unfold Eval
    simp only []
    rw [if_neg (by simpa using harity), hm1]
    simp only []
    rw [hm2]
    split <;> rfl

/-- Witness for C5: the pattern of `/posts/{{slug string}}{{ext string}}` with
a validator that accepts letters only, against `/posts/hello.html`: the
extension candidate `.html` is rejected and the match succeeds. -/
theorem C5_success_is_basename_witness :
    (splitDirs (pathSplit "/posts/hello.html".toList).1).length
      = (patPosts wordTypes).Dirs.length ∧
    (∀ e ∈ (patPosts wordTypes).Dirs.zip (splitDirs (pathSplit "/posts/hello.html".toList).1),
      (evalElement (patPosts wordTypes) e.1 e.2).2.2 = true) ∧
    ((Eval (patPosts wordTypes) "/posts/hello.html".toList).2 =
      (evalElement (patPosts wordTypes) (patPosts wordTypes).Base
        (candidates (patPosts wordTypes) (pathSplit "/posts/hello.html".toList).2).1).2.2 ∧
    ∃ m1, evalDirs (patPosts wordTypes) (patPosts wordTypes).Dirs
        (splitDirs (pathSplit "/posts/hello.html".toList).1) [] = some m1 ∧
      (Eval (patPosts wordTypes) "/posts/hello.html".toList).1 = some
        (let rb := evalElement (patPosts wordTypes) (patPosts wordTypes).Base
            (candidates (patPosts wordTypes) (pathSplit "/posts/hello.html".toList).2).1
         let re := evalElement (patPosts wordTypes) (patPosts wordTypes).Ext
            (candidates (patPosts wordTypes) (pathSplit "/posts/hello.html".toList).2).2
         let m2 := if (patPosts wordTypes).Ext ≠ [] ∧ re.2.2 = true
           then store m1 re.1 re.2.1 else m1
         if rb.2.2 = true then store m2 rb.1 rb.2.1 else m2)) :=
  ⟨by decide, by decide,
    C5_success_is_basename (patPosts wordTypes) "/posts/hello.html".toList
      (by decide) (by decide)⟩

/-- C6, failing input: the pattern of `/{{id int}}/x` against the path `/5/y`.
The directory segment extracts `id = 5`, the basename `x` does not match `y`,
and `Eval` returns the mapping with the entry `id` together with failure. -/
theorem C6_failure_keeps_mapping :
    ∃ p, NewRouteDSL intTypes srcIdX = .ok p ∧
      Eval p "/5/y".toList = (some [("id".toList, "5".toList)], false) :=
  ⟨_, rfl, by decide⟩

/-- C7, failing input: in `/{{}}/{{a{{b` the only directory component is the
wrapped segment `{{}}` with an empty body, yet `NewRouteDSL` returns no error:
the final component `{{a{{b` has two opening delimiters and no closing one, and
the index `parts[1]` faults before any segment is parsed. -/
theorem C7_fault_before_error :
    splitDirs (pathSplit srcEmptyThenTwoOpen).1 = [StartVar ++ EndVar] ∧
    wrapped (StartVar ++ EndVar) = true ∧
    TrimSpace (TrimSuffix (TrimPrefix (StartVar ++ EndVar) StartVar) EndVar) = [] ∧
    (∀ reg, NewRouteDSL reg srcEmptyThenTwoOpen = .fault) :=
  ⟨by decide, by decide, by decide, fun _ => rfl⟩

/-- C8, failing input: the final component of `/{{a{{b` holds two opening
delimiters and no closing one, so `strings.SplitN` gives a single part and the
index `parts[1]` is out of range: `NewRouteDSL` faults. -/
theorem C8_two_open_faults :
    Count (pathSplit srcTwoOpen).2 StartVar = 2 ∧
    SplitN2 (pathSplit srcTwoOpen).2 EndVar = [(pathSplit srcTwoOpen).2] ∧
    (∀ reg, NewRouteDSL reg srcTwoOpen = .fault) :=
  ⟨by decide, by decide, fun _ => rfl⟩

/-- C9, failing input: in `/a/{{id int/b` the directory component `{{id int`
starts with the opening delimiter and does not end with the closing one;
`NewRouteDSL` returns no error but a pattern that stores the component
unchanged and declares no variable. -/
theorem C9_unclosed_compiles :
    HasPrefix ("\x7b\x7bid int".toList) StartVar = true ∧
    HasSuffix ("\x7b\x7bid int".toList) EndVar = false ∧
    splitDirs (pathSplit srcUnclosed).1 = ["a".toList, "\x7b\x7bid int".toList] ∧
    (∀ reg, NewRouteDSL reg srcUnclosed = .ok
      { Src := srcUnclosed
        Dirs := ["a".toList, "\x7b\x7bid int".toList]
        Base := "b".toList
        Ext := []
        VarToType := []
        TypeFn := reg }) :=
  ⟨by decide, by decide, by decide, fun _ => rfl⟩

/-- C10: `RegisterType` on a name that is already a key of the registry returns
the duplicate-registration error and leaves the pattern, registry included, as
it was; on a name that is not yet a key it returns no error, the name then maps
to the new validator and every other entry is unchanged, and a second
registration of the same name then fails and leaves the first one in place. -/
theorem C10_register_type (rdsl : RouteDSL) (tName : Str) (ev ev2 : EvalType) :
    ((rdsl.TypeFn tName).isSome = true →
      (RegisterType rdsl tName ev).2 = some tName ∧
      (RegisterType rdsl tName ev).1.TypeFn = rdsl.TypeFn) ∧
    (rdsl.TypeFn tName = none →
      (RegisterType rdsl tName ev).2 = none ∧
      (RegisterType rdsl tName ev).1.TypeFn tName = some ev ∧
      (∀ k, k ≠ tName → (RegisterType rdsl tName ev).1.TypeFn k = rdsl.TypeFn k) ∧
      (RegisterType (RegisterType rdsl tName ev).1 tName ev2).2 = some tName ∧
      (RegisterType (RegisterType rdsl tName ev).1 tName ev2).1.TypeFn tName = some ev) := by
  constructor
  · intro h
    simp [RegisterType, h]
  · intro h
    have h1 : (RegisterType rdsl tName ev).1.TypeFn tName = some ev := by
      simp [RegisterType, h]
    refine ⟨by simp [RegisterType, h], h1, ?_, ?_, ?_⟩
    · intro k hk
      simp [RegisterType, h, hk]
    · simp [RegisterType, h]
    · simp [RegisterType, h]

/-- Witness for C10: `int` is a key of `intTypes` and `string` is not. -/
theorem C10_register_type_witness :
    ((RegisterType patAId "int".toList acceptAll).2 = some "int".toList ∧
      (RegisterType patAId "int".toList acceptAll).1.TypeFn = patAId.TypeFn) ∧
    ((RegisterType patAId "string".toList acceptAll).2 = none ∧
      (RegisterType patAId "string".toList acceptAll).1.TypeFn "string".toList
        = some acceptAll ∧
      (∀ k, k ≠ "string".toList →
        (RegisterType patAId "string".toList acceptAll).1.TypeFn k = patAId.TypeFn k) ∧
      (RegisterType (RegisterType patAId "string".toList acceptAll).1
        "string".toList digitsOnly).2 = some "string".toList ∧
      (RegisterType (RegisterType patAId "string".toList acceptAll).1
        "string".toList digitsOnly).1.TypeFn "string".toList = some acceptAll) :=
  ⟨(C10_register_type patAId "int".toList acceptAll digitsOnly).1 rfl,
    (C10_register_type patAId "string".toList acceptAll digitsOnly).2 rfl⟩

/-- C11, as stated, fails: on the template `{{a}}`, the entries `a -> {{b}}`
and `b -> x` give `x` when `a` is visited first and `{{b}}` when `b` is visited
first. -/
theorem C11_counterexample :
    chainAB.Perm chainBA ∧ (chainAB.map Prod.fst).Nodup ∧
    Resolve patAId chainAB tmplA = "x".toList ∧
    Resolve patAId chainBA tmplA = "\x7b\x7bb\x7d\x7d".toList ∧
    Resolve patAId chainAB tmplA ≠ Resolve patAId chainBA tmplA :=
  ⟨List.Perm.swap _ _ _, by decide, by decide, by decide, by decide⟩

/-- C11, amended: on a template made of brace-free literal text and
placeholders `{{name}}` with brace-free names, and for a mapping with distinct,
brace-free names and brace-free values, `Resolve` gives the same string in any
two orders of the entries. -/
theorem C11_order_independent (rdsl : RouteDSL) (ps : List Piece) (m1 m2 : StrMap)
    (hps : ∀ p ∈ ps, p.wf) (hm : ∀ e ∈ m1, braceFree e.1 ∧ braceFree e.2)
    (hnd : (m1.map Prod.fst).Nodup) (hperm : m1.Perm m2) :
    Resolve rdsl m1 (renderAll ps) = Resolve rdsl m2 (renderAll ps) := by
  have hm2 : ∀ e ∈ m2, braceFree e.1 ∧ braceFree e.2 :=
    fun e he => hm e (hperm.mem_iff.mpr he)
  rw [Resolve_renderAll rdsl m1 ps hps hm, Resolve_renderAll rdsl m2 ps hps hm2]
  congr 1
  apply List.map_congr_left
  intro p _
  cases p with
  | lit w => rfl
  | var n => simp only [Piece.subst, get_perm m1 m2 hperm hnd n]

/-- Witness for C11 (amended): the template `/users/{{id}}/profile` and the
entries `id -> 42`, `x -> y` in both orders. -/
theorem C11_order_independent_witness :
    (∀ p ∈ usersPieces, p.wf) ∧
    (∀ e ∈ [("id".toList, "42".toList), ("x".toList, "y".toList)],
      braceFree e.1 ∧ braceFree e.2) ∧
    ([("id".toList, "42".toList), ("x".toList, "y".toList)].map Prod.fst).Nodup ∧
    [("id".toList, "42".toList), ("x".toList, "y".toList)].Perm
      [("x".toList, "y".toList), ("id".toList, "42".toList)] ∧
    Resolve patAId [("id".toList, "42".toList), ("x".toList, "y".toList)]
        (renderAll usersPieces) =
      Resolve patAId [("x".toList, "y".toList), ("id".toList, "42".toList)]
        (renderAll usersPieces) :=
  ⟨by decide, by decide, by decide, List.Perm.swap _ _ _,
    C11_order_independent patAId usersPieces _ _ (by decide) (by decide) (by decide)
      (List.Perm.swap _ _ _)⟩

/-- C12, as stated, fails: the pattern of `/users/{{id int}}/profile` matches
`/users/42/profile` with the mapping `id -> 42`, and `Resolve` of that mapping
on the source of the pattern returns the source unchanged, since the source
holds the declaration `{{id int}}` and not the token `{{id}}`. -/
theorem C12_counterexample :
    ∃ p m, NewRouteDSL intTypes srcUsers = .ok p ∧
      Eval p "/users/42/profile".toList = (some m, true) ∧
      m = [("id".toList, "42".toList)] ∧
      Resolve p m p.Src = srcUsers ∧
      Resolve p m p.Src ≠ "/users/42/profile".toList :=
  ⟨patUsers intTypes, [("id".toList, "42".toList)], rfl, by decide, rfl, by decide, by decide⟩

/-- C12, amended: on a template made of brace-free literal text and
placeholders `{{name}}` with brace-free names, and for a mapping with
brace-free names and values, `Resolve` returns the template in which every
placeholder whose name is a key of the mapping has been replaced by its value,
the literal text and the other placeholders being unchanged. -/
theorem C12_resolve_template (rdsl : RouteDSL) (m : StrMap) (ps : List Piece)
    (hps : ∀ p ∈ ps, p.wf) (hm : ∀ e ∈ m, braceFree e.1 ∧ braceFree e.2) :
    Resolve rdsl m (renderAll ps) = renderAll (ps.map (Piece.subst m)) :=
  Resolve_renderAll rdsl m ps hps hm

/-- Witness for C12 (amended): the mapping `Eval` returns for
`/users/42/profile`, on the template `/users/{{id}}/profile`. -/
theorem C12_resolve_template_witness :
    (Eval (patUsers intTypes) "/users/42/profile".toList).1
      = some [("id".toList, "42".toList)] ∧
    renderAll usersPieces = "/users/\x7b\x7bid\x7d\x7d/profile".toList ∧
    renderAll (usersPieces.map (Piece.subst [("id".toList, "42".toList)]))
      = "/users/42/profile".toList ∧
    (∀ p ∈ usersPieces, p.wf) ∧
    (∀ e ∈ [("id".toList, "42".toList)], braceFree e.1 ∧ braceFree e.2) ∧
    Resolve (patUsers intTypes) [("id".toList, "42".toList)] (renderAll usersPieces) =
      renderAll (usersPieces.map (Piece.subst [("id".toList, "42".toList)])) :=
  ⟨by decide, by decide, by decide, by decide, by decide,
    C12_resolve_template (patUsers intTypes) [("id".toList, "42".toList)] usersPieces
      (by decide) (by decide)⟩

/-- C13, as stated, fails: the token `{{a}}` occurs in the template `{{{a}}`
and `a` is no key of the mapping `{a -> z`, yet `Resolve` returns `z`, in which
the token no longer occurs. -/
theorem C13_counterexample :
    Contains tmplBraceA (token "a".toList) = true ∧
    (∀ e ∈ mapBraceA, e.1 ≠ "a".toList) ∧
    Resolve patAId mapBraceA tmplBraceA = "z".toList ∧
    Contains (Resolve patAId mapBraceA tmplBraceA) (token "a".toList) = false :=
  ⟨by decide, by decide, by decide, by decide⟩

/-- C13, amended: when the token `{{k}}` occurs in the template for no name `k`
of the mapping, `Resolve` returns the template unchanged (so it does for the
empty mapping); and when the names of the mapping have no brace, a token
`{{n}}` that occurs in the template, with `n` brace-free and no key of the
mapping, still occurs in the result. -/
theorem C13_resolve_frame (rdsl : RouteDSL) (m : StrMap) (s : Str) :
    ((∀ e ∈ m, Contains s (token e.1) = false) → Resolve rdsl m s = s) ∧
    Resolve rdsl [] s = s ∧
    (∀ n, braceFree n → (∀ e ∈ m, braceFree e.1) → (∀ e ∈ m, e.1 ≠ n) →
      Contains s (token n) = true → Contains (Resolve rdsl m s) (token n) = true) :=
  ⟨Resolve_unchanged rdsl m s, rfl,
    fun n hn hb hk h => Resolve_keeps_contains rdsl n hn m s hb hk h⟩

/-- Witness for C13 (amended): the template `{{a}}` and the mapping `b -> x`. -/
theorem C13_resolve_frame_witness :
    Resolve patAId [("b".toList, "x".toList)] tmplA = tmplA ∧
    Contains (Resolve patAId [("b".toList, "x".toList)] tmplA) (token "a".toList) = true :=
  ⟨(C13_resolve_frame patAId [("b".toList, "x".toList)] tmplA).1 (by decide),
    (C13_resolve_frame patAId [("b".toList, "x".toList)] tmplA).2.2 "a".toList
      (by decide) (by decide) (by decide) (by decide)⟩

/-- C14: in every pattern returned by `NewRouteDSL`, each stored directory
segment, the stored basename and the stored extension satisfy `SegInv` with
respect to the raw text they were compiled from: wrapped exactly when the raw
text is wrapped, unchanged when it is not, and when wrapped of the form
`{{name}}` with `name` non-empty, given back by `varName`, and a key of the
variable-to-type mapping with a non-empty type expression. -/
theorem C14_stored_segments (reg : TypeRegistry) (src : Str) (p : RouteDSL)
    (h : NewRouteDSL reg src = .ok p) :
    ∃ b x, splitBaseExt (pathSplit src).2 = some (b, x) ∧
      List.Forall₂ (SegInv p.VarToType) (splitDirs (pathSplit src).1) p.Dirs ∧
      SegInv p.VarToType b p.Base ∧
      SegInv p.VarToType x p.Ext := by
  obtain ⟨b, x, r1, r2, r3, hs, h1, h2, h3, hp⟩ := NewRouteDSL_ok_inv reg src p h
  obtain ⟨_, stored, e1, hf⟩ := compileDirs_inv _ _ _ _ r1 h1
  obtain ⟨hm2, hb⟩ := compileBase_inv b r1.2 r2 h2
  obtain ⟨hm3, hx⟩ := compileExt_inv x r2.2 r3 h3
  refine ⟨b, x, hs, ?_, ?_, ?_⟩
  · rw [hp]
    simp only []
    rw [e1, List.nil_append]
    exact hf.imp (fun _ _ hseg => SegInv_mono _ _ _ _ (fun n hn => hm3 n (hm2 n hn)) hseg)
  · rw [hp]
    exact SegInv_mono _ _ _ _ hm3 hb
  · rw [hp]
    exact hx

/-- Witness for C14: the pattern of `/posts/{{slug string}}{{ext string}}`. -/
theorem C14_stored_segments_witness :
    NewRouteDSL noTypes srcPosts = .ok (patPosts noTypes) ∧
    ∃ b x, splitBaseExt (pathSplit srcPosts).2 = some (b, x) ∧
      List.Forall₂ (SegInv (patPosts noTypes).VarToType)
        (splitDirs (pathSplit srcPosts).1) (patPosts noTypes).Dirs ∧
      SegInv (patPosts noTypes).VarToType b (patPosts noTypes).Base ∧
      SegInv (patPosts noTypes).VarToType x (patPosts noTypes).Ext :=
  ⟨rfl, C14_stored_segments noTypes srcPosts (patPosts noTypes) rfl⟩

/-- C15, as stated, fails: the only component of `/foo` is the final one, so no
component precedes it, yet the compiled pattern stores one directory segment,
the empty string. -/
theorem C15_counterexample :
    ∃ p, NewRouteDSL noTypes "/foo".toList = .ok p ∧
      (Split (TrimPrefix "/foo".toList ['/']) ['/']).length - 1 = 0 ∧
      p.Dirs = [[]] ∧ p.Dirs.length = 1 :=
  ⟨_, rfl, by decide, by decide, by decide⟩

/-- C15, amended: for a source that compiles, the number of stored directory
segments is the number of components that precede the final one once a leading
slash is trimmed, and one (the empty segment) when none precedes it. -/
theorem C15_dirs_length (reg : TypeRegistry) (src : Str) (p : RouteDSL)
    (h : NewRouteDSL reg src = .ok p) :
    p.Dirs.length = max 1 ((Split (TrimPrefix src ['/']) ['/']).length - 1) := by
  obtain ⟨b, x, r1, r2, r3, _, h1, _, _, hp⟩ := NewRouteDSL_ok_inv reg src p h
  have hl := compileDirs_length _ _ _ _ r1 h1
  rw [hp]
  simp only []
  rw [hl, splitDirs_length, Split_slash_length]
  simp

/-- Witness for C15 (amended): the source `/users/{{id int}}/profile` has two
directory segments. -/
theorem C15_dirs_length_witness :
    NewRouteDSL noTypes srcUsers = .ok (patUsers noTypes) ∧
    (patUsers noTypes).Dirs.length =
      max 1 ((Split (TrimPrefix srcUsers ['/']) ['/']).length - 1) ∧
    (patUsers noTypes).Dirs.length = 2 :=
  ⟨rfl, C15_dirs_length noTypes srcUsers (patUsers noTypes) rfl, by decide⟩

/-- C16, as stated, fails: the body of `{{a<TAB>b}}` contains white space (the
tab), and `varDefn` fails on it for want of a blank. -/
theorem C16_counterexample :
    wrapped tabDecl = true ∧
    (∃ c ∈ declBody tabDecl, isSpace c = true) ∧
    varDefn tabDecl = .err (.missingTypeInfo tabDecl) :=
  ⟨by decide, ⟨'\t', by decide, by decide⟩, rfl⟩

/-- C16, amended: on a delimiter-wrapped token, with `body` the token without
its delimiters and surrounding white space, `varDefn` succeeds exactly when
`body` contains a blank (the character U+0020); on success the name is the text
of `body` before its first blank and the type expression the text after it,
both are non-empty and the name has no blank; the failures "missing variable
name" and "missing type expression" are never returned, and `varDefn` never
faults. -/
theorem C16_varDefn_blank (s : Str) (hw : wrapped s = true) :
    ((∃ r, varDefn s = .ok r) ↔ ' ' ∈ declBody s) ∧
    (∀ n t, varDefn s = .ok (n, t) →
      declBody s = n ++ ' ' :: t ∧ ' ' ∉ n ∧ n ≠ [] ∧ t ≠ []) ∧
    varDefn s ≠ .err .missingVarName ∧
    (∀ v, varDefn s ≠ .err (.missingTypeExpr v)) ∧
    varDefn s ≠ .fault := by
  by_cases hc : Contains (declBody s) [' '] = true
  · obtain ⟨n, t, hok, hb, hn, hn0, ht0⟩ := varDefn_ok s hw hc
    refine ⟨⟨fun _ => (contains_blank_iff _).mp hc, fun _ => ⟨(n, t), hok⟩⟩, ?_, ?_, ?_, ?_⟩
    · intro n' t' h'
      rw [hok] at h'
      injection h' with h'
      injection h' with h1 h2
      subst h1 h2
      exact ⟨hb, hn, hn0, ht0⟩
    · rw [hok]; intro h'; cases h'
    · intro v; rw [hok]; intro h'; cases h'
    · rw [hok]; intro h'; cases h'
  · have hc' : Contains (declBody s) [' '] = false := by simpa using hc
    have herr : varDefn s = .err .missingNameAndType ∨ varDefn s = .err (.missingTypeInfo s) := by
      by_cases hb : declBody s = []
      · exact Or.inl (varDefn_empty s hw hb)
      · exact Or.inr (varDefn_no_blank s hw hb hc')
    have hnot : ' ' ∉ declBody s := fun h => hc ((contains_blank_iff _).mpr h)
    refine ⟨⟨?_, fun h => absurd h hnot⟩, ?_, ?_, ?_, ?_⟩
    · rintro ⟨r, hr⟩
      rcases herr with h' | h' <;> rw [h'] at hr <;> cases hr
    · intro n t hr
      rcases herr with h' | h' <;> rw [h'] at hr <;> cases hr
    · rcases herr with h' | h' <;> rw [h'] <;> intro hr <;> cases hr
    · intro v
      rcases herr with h' | h' <;> rw [h'] <;> intro hr <;> cases hr
    · rcases herr with h' | h' <;> rw [h'] <;> intro hr <;> cases hr

/-- Witness for C16 (amended): the declaration `{{id int}}`. -/
theorem C16_varDefn_blank_witness :
    wrapped "\x7b\x7bid int\x7d\x7d".toList = true ∧
    (((∃ r, varDefn "\x7b\x7bid int\x7d\x7d".toList = .ok r) ↔
        ' ' ∈ declBody "\x7b\x7bid int\x7d\x7d".toList) ∧
    (∀ n t, varDefn "\x7b\x7bid int\x7d\x7d".toList = .ok (n, t) →
      declBody "\x7b\x7bid int\x7d\x7d".toList = n ++ ' ' :: t ∧ ' ' ∉ n ∧ n ≠ [] ∧ t ≠ []) ∧
    varDefn "\x7b\x7bid int\x7d\x7d".toList ≠ .err .missingVarName ∧
    (∀ v, varDefn "\x7b\x7bid int\x7d\x7d".toList ≠ .err (.missingTypeExpr v)) ∧
    varDefn "\x7b\x7bid int\x7d\x7d".toList ≠ .fault) :=
  ⟨by decide, C16_varDefn_blank "\x7b\x7bid int\x7d\x7d".toList (by decide)⟩

/-- C17: for a source that compiles, with `base` its final component: when
`base` holds exactly two (non-overlapping) occurrences of the opening
delimiter, the raw basename is `base` up to and including its first closing
delimiter and the raw extension is the rest; otherwise the raw basename is
`base` and the raw extension is empty.  In both cases basename and extension
together are `base`, and the stored basename and extension of the pattern are
compiled from them. -/
theorem C17_base_ext_split (reg : TypeRegistry) (src : Str) (p : RouteDSL)
    (h : NewRouteDSL reg src = .ok p) :
    ∃ b x, splitBaseExt (pathSplit src).2 = some (b, x) ∧
      b ++ x = (pathSplit src).2 ∧
      (Count (pathSplit src).2 StartVar = 2 →
        ∃ a, b = a ++ EndVar ∧
          ∀ a' x', (pathSplit src).2 = a' ++ EndVar ++ x' → a.length ≤ a'.length) ∧
      (Count (pathSplit src).2 StartVar ≠ 2 → b = (pathSplit src).2 ∧ x = []) ∧
      ∃ vt1 vt2, compileBase b vt1 = .ok (p.Base, vt2) ∧
        compileExt x vt2 = .ok (p.Ext, p.VarToType) := by
  obtain ⟨b, x, r1, r2, r3, hs, _, h2, h3, hp⟩ := NewRouteDSL_ok_inv reg src p h
  have hcomp : ∃ vt1 vt2, compileBase b vt1 = .ok (p.Base, vt2) ∧
      compileExt x vt2 = .ok (p.Ext, p.VarToType) := by
    rw [hp]
    exact ⟨r1.2, r2.2, h2, h3⟩
  refine ⟨b, x, hs, ?_, ?_, ?_, hcomp⟩
  · unfold splitBaseExt SplitN2 at hs
    by_cases hc : Count (pathSplit src).2 StartVar = 2
    · rw [if_pos hc] at hs
      cases hr : cut EndVar (pathSplit src).2 with
      | none => simp [hr] at hs
      | some r =>
        obtain ⟨a0, b0⟩ := r
        simp [hr] at hs
        obtain ⟨e1, e2⟩ := hs
        subst e1 e2
        exact (cut_sound EndVar _ a0 b0 hr).symm
    · rw [if_neg hc] at hs
      simp at hs
      obtain ⟨e1, e2⟩ := hs
      subst e1 e2
      simp
  · intro hc
    unfold splitBaseExt SplitN2 at hs
    rw [if_pos hc] at hs
    cases hr : cut EndVar (pathSplit src).2 with
    | none => simp [hr] at hs
    | some r =>
      obtain ⟨a0, b0⟩ := r
      simp [hr] at hs
      obtain ⟨e1, e2⟩ := hs
      subst e1 e2
      exact ⟨a0, rfl, cut_first EndVar _ a0 b0 hr⟩
  · intro hc
    unfold splitBaseExt at hs
    rw [if_neg hc] at hs
    simp at hs
    exact ⟨hs.1.symm, hs.2⟩

/-- Witness for C17: `/posts/{{slug string}}{{ext string}}` compiles to the
directories `posts`, the basename `{{slug}}`, the extension `{{ext}}` and the
type mapping `slug -> string`, `ext -> string`. -/
theorem C17_base_ext_split_witness :
    NewRouteDSL noTypes srcPosts = .ok (patPosts noTypes) ∧
    splitBaseExt (pathSplit srcPosts).2 =
      some ("\x7b\x7bslug string\x7d\x7d".toList, "\x7b\x7bext string\x7d\x7d".toList) ∧
    ∃ b x, splitBaseExt (pathSplit srcPosts).2 = some (b, x) ∧
      b ++ x = (pathSplit srcPosts).2 ∧
      (Count (pathSplit srcPosts).2 StartVar = 2 →
        ∃ a, b = a ++ EndVar ∧
          ∀ a' x', (pathSplit srcPosts).2 = a' ++ EndVar ++ x' → a.length ≤ a'.length) ∧
      (Count (pathSplit srcPosts).2 StartVar ≠ 2 → b = (pathSplit srcPosts).2 ∧ x = []) ∧
      ∃ vt1 vt2, compileBase b vt1 = .ok ((patPosts noTypes).Base, vt2) ∧
        compileExt x vt2 = .ok ((patPosts noTypes).Ext, (patPosts noTypes).VarToType) :=
  ⟨rfl, by decide, C17_base_ext_split noTypes srcPosts (patPosts noTypes) rfl⟩

/-- C18: `evalElement` of the placeholder segment `{{name}}` against a
candidate `c`.  Without a declared type expression for `name` the result is
(no variable, no value, failure).  With the declared type expression `t`, the
registry is read at the whole string `t`: without an entry the result is
(`name`, no value, failure); with the validator `fn` the result is
(`name`, value, success) when `fn t c` accepts and (no variable, no value,
failure) when it rejects.  Hence a pattern that has the placeholder as a
directory segment or as its basename, with a type expression that is no key of
the registry, matches no path. -/
theorem C18_evalElement_placeholder (rdsl : RouteDSL) (name c : Str) :
    (rdsl.VarToType.get name = none →
      evalElement rdsl (StartVar ++ name ++ EndVar) c = ([], [], false)) ∧
    (∀ t, rdsl.VarToType.get name = some t → rdsl.TypeFn t = none →
      evalElement rdsl (StartVar ++ name ++ EndVar) c = (name, [], false)) ∧
    (∀ t fn, rdsl.VarToType.get name = some t → rdsl.TypeFn t = some fn →
      evalElement rdsl (StartVar ++ name ++ EndVar) c =
        if (fn t c).2 = true then (name, (fn t c).1, true) else ([], [], false)) ∧
    (∀ t, rdsl.VarToType.get name = some t → rdsl.TypeFn t = none →
      (StartVar ++ name ++ EndVar ∈ rdsl.Dirs ∨ rdsl.Base = StartVar ++ name ++ EndVar) →
      ∀ pathValue, (Eval rdsl pathValue).2 = false) := by
  have hp := HasPrefix_wrap name
  have hn := varName_wrap name
  have hnone : ∀ t, rdsl.VarToType.get name = some t → rdsl.TypeFn t = none →
      ∀ c', evalElement rdsl (StartVar ++ name ++ EndVar) c' = (name, [], false) := by
    intro t ht hf c'
    unfold evalElement
    rw [if_pos hp, hn]
    simp only [ht, hf]
  refine ⟨?_, fun t ht hf => hnone t ht hf c, ?_, ?_⟩
  · intro h
    unfold evalElement
    rw [if_pos hp, hn]
    simp only [h]
  · intro t fn ht hf
    have := evalElement_var rdsl (StartVar ++ name ++ EndVar) c t fn hp (by rw [hn]; exact ht) hf
    rw [this, hn]
  · intro t ht hf hseg pathValue
    have hfail : ∀ c', (evalElement rdsl (StartVar ++ name ++ EndVar) c').2.2 = false := by
      intro c'
      rw [hnone t ht hf c']
    unfold Eval
    simp only []
    by_cases hlen : (splitDirs (pathSplit pathValue).1).length = rdsl.Dirs.length
    · rw [if_neg (by simpa using hlen)]
      rcases hseg with hd | hb
      · rw [evalDirs_none_of_mem rdsl _ hfail _ _ _ hd hlen.symm]
      · cases hdirs : evalDirs rdsl rdsl.Dirs (splitDirs (pathSplit pathValue).1) [] with
        | none => rfl
        | some m1 =>
          simp only []
          rw [hb, hfail]
          simp
    · rw [if_pos (by simpa using hlen)]

/-- Witness for C18: the placeholder `{{id}}` declared with the type expression
`uuid`, for which the registry `intTypes` has no entry. -/
theorem C18_evalElement_placeholder_witness :
    NewRouteDSL intTypes patUuid.Src = .ok patUuid ∧
    evalElement patUuid (StartVar ++ "id".toList ++ EndVar) "7".toList
      = ("id".toList, [], false) ∧
    (∀ pathValue, (Eval patUuid pathValue).2 = false) :=
  ⟨rfl,
    (C18_evalElement_placeholder patUuid "id".toList "7".toList).2.1 "uuid".toList rfl rfl,
    (C18_evalElement_placeholder patUuid "id".toList "7".toList).2.2.2 "uuid".toList rfl rfl
      (Or.inl (by decide))⟩

/-- C19, failing input: the pattern of `/{{e/{{b int}}{{e int}}` against the
path `/1/5.x`.  The directory segment `{{e` is not a placeholder (it is not
wrapped in the delimiter pair and was stored unchanged), the placeholders are
the basename `{{b}}` and the extension `{{e}}`, and the extension evaluation
fails on `.x`; yet `Eval` succeeds with a mapping that holds the key `e`, taken
from the directory component `1`. -/
theorem C19_unwrapped_segment_writes :
    NewRouteDSL intTypes srcUnclosedKey = .ok patUnclosedKey ∧
    wrapped "\x7b\x7be".toList = false ∧
    (evalElement patUnclosedKey patUnclosedKey.Ext ".x".toList).2.2 = false ∧
    Eval patUnclosedKey "/1/5.x".toList =
      (some [("e".toList, "1".toList), ("b".toList, "5".toList)], true) :=
  ⟨rfl, by decide, by decide, by decide⟩

/-- C20: for a string `s` that does not begin with a slash, `Eval` returns on
`/s` the mapping and the success flag it returns on `s`, for every pattern and
every registry. -/
theorem C20_leading_slash (rdsl : RouteDSL) (s : Str) (h : s.head? ≠ some '/') :
    Eval rdsl ('/' :: s) = Eval rdsl s := by
  unfold Eval
  rw [pathSplit_cons_slash]
  simp only [splitDirs_cons_slash s h]

/-- Witness for C20: the pattern of `/a/{{id int}}` on `/a/7` and on `a/7`. -/
theorem C20_leading_slash_witness :
    "a/7".toList.head? ≠ some '/' ∧
    Eval patAId ('/' :: "a/7".toList) = Eval patAId "a/7".toList :=
  ⟨by decide, C20_leading_slash patAId "a/7".toList (by decide)⟩

end Newt
